import Mathlib

/-!
Verification of the multi-turn tool-calling orchestration library
(step loop engine, streaming step engine, tool dispatcher, object
enforcer, delta decoder) against its natural-language specification.

The Go source is embedded shallowly: Go structs become Lean structures,
slices become Lean lists (Go draws no observable distinction between a
nil slice and an empty one for the properties below, both are `[]`),
`json.RawMessage` byte strings become `String`, and the external
provider is a fixed sequence of turns, indexed by call number.
External black boxes (the JSON-Schema validator, `encoding/json`)
are passed in as function parameters, exactly as the spec declares them
out of scope ("consumes a validator and a transport as black boxes").
-/

namespace AI

/-- Decidable equality for `Except`, so that concrete runs can be
compared by `decide`. -/
instance {e a : Type _} [DecidableEq e] [DecidableEq a] : DecidableEq (Except e a) := fun x y =>
  match x, y with
  | .error u, .error v => decidable_of_iff (u = v) (by simp)
  | .error _, .ok _ => isFalse (by simp)
  | .ok _, .error _ => isFalse (by simp)
  | .ok u, .ok v => decidable_of_iff (u = v) (by simp)

/-- Mirrors `provider.Usage` (internal/provider/types.go): prompt,
completion and total token counts. Go `int` is modelled as `Int`
(token counts never approach overflow, so wraparound is not modelled). -/
structure Usage where
  promptTokens : Int
  completionTokens : Int
  totalTokens : Int
  deriving Repr, DecidableEq

/-- The zero `provider.Usage` value (Go zero value). -/
def Usage.zero : Usage := ⟨0, 0, 0⟩

/-- Mirrors `provider.Role`. -/
inductive Role where
  | system
  | user
  | assistant
  | tool
  deriving Repr, DecidableEq

/-- Mirrors `provider.ToolCallPart`: id, name and raw JSON arguments. -/
structure ToolCallPart where
  id : String
  name : String
  args : String
  deriving Repr, DecidableEq

/-- Mirrors `provider.ContentPart` (interface with `TextPart` and
`ToolCallPart` implementations). -/
inductive ContentPart where
  | text (text : String)
  | toolCall (tc : ToolCallPart)
  deriving Repr, DecidableEq

/-- Mirrors `provider.Message`. -/
structure Message where
  role : Role
  content : List ContentPart
  name : String
  toolCallID : String
  deriving Repr, DecidableEq

/-- Mirrors `provider.ToolDefinition`. -/
structure ToolDefinition where
  name : String
  description : String
  inputSchema : String
  deriving Repr, DecidableEq

/-- Mirrors `provider.Response`. -/
structure Response where
  message : Message
  usage : Usage
  finishReason : String
  deriving Repr, DecidableEq

/-- Mirrors `provider.Request` restricted to the fields the engines
read or write (`Model`, `Messages`, `Tools`); the remaining fields
(sampling parameters, metadata, provider wiring) are copied through
untouched by the engines and carry no information for the claims. -/
structure Request where
  model : String
  messages : List Message
  tools : List ToolDefinition
  deriving Repr, DecidableEq

/-- Mirrors `tools.ExtractToolCalls` (internal/tools/tools.go): collect
the `ToolCallPart` content parts of a message, in order. -/
def ExtractToolCalls (m : Message) : List ToolCallPart :=
  m.content.filterMap fun p =>
    match p with
    | .toolCall tc => some tc
    | _ => none

/-- Mirrors `tools.AddUsage` (internal/tools/tools.go): field-wise sum. -/
def AddUsage (a b : Usage) : Usage :=
  { promptTokens := a.promptTokens + b.promptTokens
    completionTokens := a.completionTokens + b.completionTokens
    totalTokens := a.totalTokens + b.totalTokens }

namespace Text

/-- Mirrors `text.Step` (internal/text/types.go). -/
structure Step where
  stepNumber : Nat
  response : Response
  toolCalls : List ToolCallPart
  toolResults : List Message
  activeTools : List String
  deriving Repr, DecidableEq

/-- Mirrors `text.StopWhenEvent`. -/
structure StopWhenEvent where
  stepNumber : Nat
  steps : List Step
  messages : List Message

/-- Mirrors `text.PrepareStepEvent`. -/
structure PrepareStepEvent where
  stepNumber : Nat
  steps : List Step
  request : Request
  messages : List Message
  tools : List ToolDefinition

/-- Mirrors `text.PrepareStepResult`. A Go nil slice is `none`; the
source distinguishes nil from non-nil (`if res.Messages != nil`,
`if res.ActiveTools != nil`), which `Option` captures. -/
structure PrepareStepResult where
  model : String
  messages : Option (List Message)
  activeTools : Option (List String)

/-- Errors produced by the step-loop engines. The Go code builds these
with `fmt.Errorf`; callback and executor failures are opaque `error`
values, modelled by `external`. -/
inductive GenError where
  | capExceeded (n : Nat)
  | noExecutor
  | external (msg : String)
  deriving Repr, DecidableEq

/-- The `error.Error()` string of each engine error, as formatted by
`fmt.Errorf` in the source. -/
def GenError.message : GenError → String
  | .capExceeded n => "tool loop exceeded max iterations (" ++ toString n ++ ")"
  | .noExecutor => "tool calls requested but no executor provided"
  | .external msg => msg

/-- Mirrors `tools.Executor`: dispatches one turn's tool calls. -/
def Executor : Type := List ToolCallPart → Except GenError (List Message)

/-- Mirrors `text.Options`. `OnStepFinish` is omitted: it returns
nothing and the engines ignore it for control flow (observational
hook), so it has no effect on any state modelled here. `PrepareStep`
may fail (`(PrepareStepResult, error)` in Go). -/
structure Options where
  maxIterations : Int
  stopWhen : Option (StopWhenEvent → Bool)
  prepareStep : Option (PrepareStepEvent → Except GenError PrepareStepResult)

/-- The `maxIterations <= 0 → 5` defaulting both engines perform on
entry (`Generate` and `NewStream`). -/
def normalizeMaxIterations (mi : Int) : Nat :=
  if mi ≤ 0 then 5 else mi.toNat

/-- Mirrors `text.GenerateResult`. -/
structure GenerateResult where
  response : Response
  aggregatedUsage : Usage
  steps : List Step
  responseMessages : List Message
  deriving Repr, DecidableEq

/-- The mutable loop state shared by the blocking loop's locals
(`messages`, `agg`, `steps`, `responseMessages`, `req.Model`, `iter`)
and the streaming engine's struct fields (`s.messages`, `s.aggUsage`,
`s.steps`, `s.responseMessages`, `s.baseReq.Model`, `s.stepNumber`). -/
structure LoopState where
  model : String
  messages : List Message
  aggUsage : Usage
  steps : List Step
  responseMessages : List Message
  stepNumber : Nat

/-- One iteration body plus the remaining iterations of the blocking
loop in `text.Generate` (internal/text/generate.go): `remaining` is the
number of loop iterations the `for iter` header still allows, so
`remaining = 0` is the loop exiting and failing with the iteration-cap
error. The provider is the fixed turn sequence `turns`, indexed by
call number (= step number: the loop performs exactly one provider
call per iteration). Note the `PrepareStepEvent.request` is built from
`stepReq` whose `Messages`/`Tools` were cleared on entry. -/
def genLoop (turns : Nat → Response) (exec : Option Executor)
    (stopWhen : Option (StopWhenEvent → Bool))
    (prepareStep : Option (PrepareStepEvent → Except GenError PrepareStepResult))
    (maxIterations : Nat) (toolDefs : List ToolDefinition) :
    Nat → LoopState → Except GenError GenerateResult
  | 0, _ => .error (.capExceeded maxIterations)
  | remaining + 1, st =>
    let stepNumber := st.stepNumber
    let prep : Except GenError (String × List Message × List Message × List String) :=
      match prepareStep with
      | none => .ok (st.model, st.messages, st.messages, [])
      | some ps =>
        match ps { stepNumber := stepNumber, steps := st.steps,
                   request := { model := st.model, messages := [], tools := [] },
                   messages := st.messages, tools := toolDefs } with
        | .error e => .error e
        | .ok res =>
          let model := if res.model ≠ "" then res.model else st.model
          let (stepMessages, messages) :=
            match res.messages with
            | some ms => (ms, ms)
            | none => (st.messages, st.messages)
          let activeTools := res.activeTools.getD []
          .ok (model, stepMessages, messages, activeTools)
    match prep with
    | .error e => .error e
    | .ok (model, stepMessages, messages, activeTools) =>
      let callTools :=
        if activeTools ≠ [] then
          toolDefs.filter (fun td => activeTools.contains td.name)
        else toolDefs
      let _callReq : Request := { model := model, messages := stepMessages, tools := callTools }
      let resp := turns stepNumber
      let agg := AddUsage st.aggUsage resp.usage
      let messages := messages ++ [resp.message]
      let responseMessages := st.responseMessages ++ [resp.message]
      let calls := ExtractToolCalls resp.message
      let step : Step :=
        { stepNumber := stepNumber, response := resp, toolCalls := calls,
          toolResults := [], activeTools := activeTools }
      if calls = [] then
        .ok { response := resp, aggregatedUsage := agg,
              steps := st.steps ++ [step], responseMessages := responseMessages }
      else
        match exec with
        | none => .error .noExecutor
        | some ex =>
          match ex calls with
          | .error e => .error e
          | .ok results =>
            let messages := messages ++ results
            let responseMessages := responseMessages ++ results
            let steps := st.steps ++ [{ step with toolResults := results }]
            let stop :=
              match stopWhen with
              | some f => f { stepNumber := stepNumber, steps := steps, messages := messages }
              | none => false
            if stop then
              .ok { response := resp, aggregatedUsage := agg,
                    steps := steps, responseMessages := responseMessages }
            else
              genLoop turns exec stopWhen prepareStep maxIterations toolDefs remaining
                { model := model, messages := messages, aggUsage := agg,
                  steps := steps, responseMessages := responseMessages,
                  stepNumber := stepNumber + 1 }

/-- Mirrors `text.Generate`: default the iteration cap, copy the
request's message and tool slices into the loop state, and run the
bounded loop starting at step 0. -/
def Generate (turns : Nat → Response) (exec : Option Executor)
    (opts : Options) (req : Request) : Except GenError GenerateResult :=
  let maxIterations := normalizeMaxIterations opts.maxIterations
  genLoop turns exec opts.stopWhen opts.prepareStep maxIterations req.tools
    maxIterations
    { model := req.model, messages := req.messages, aggUsage := Usage.zero,
      steps := [], responseMessages := [], stepNumber := 0 }

/-- The end-of-turn bookkeeping loop of `text.Stream.Next`
(internal/text/stream.go, lines 198–293) together with `Stream.start`,
run to exhaustion. A call to `Next` first drains the open provider
stream; the delta branch (case (a)) only sets the transient `curDelta`
and invokes the observational `onDelta` callback, touching none of the
fields below, so the exhausted state is fully determined by the
end-of-stream branch modelled here. Each processed turn is the
(non-nil) final response of the `stepNumber`-th provider stream. The
success value pairs `s.final` with the exhausted state (from which
`Usage()`, `Steps()` and `ResponseMessages()` read). `fuel` only
bounds the recursion: the in-code cap check `s.stepNumber >=
s.opts.MaxIterations` always fires first when the engine is entered
with `fuel = maxIterations` (the `fuel = 0` equation is the same cap
failure it would be about to raise). Note `Stream.start` builds the
`PrepareStepEvent.request` from `s.baseReq` after setting its
`Messages` to the current conversation — unlike the blocking loop. -/
def streamLoop (turns : Nat → Response) (exec : Option Executor)
    (stopWhen : Option (StopWhenEvent → Bool))
    (prepareStep : Option (PrepareStepEvent → Except GenError PrepareStepResult))
    (maxIterations : Nat) (toolDefs : List ToolDefinition) :
    Nat → LoopState → Except GenError (Response × LoopState)
  | 0, _ => .error (.capExceeded maxIterations)
  | fuel + 1, st =>
    let stepNumber := st.stepNumber
    let prep : Except GenError (String × List Message × List Message × List String) :=
      match prepareStep with
      | none => .ok (st.model, st.messages, st.messages, [])
      | some ps =>
        match ps { stepNumber := stepNumber, steps := st.steps,
                   request := { model := st.model, messages := st.messages, tools := [] },
                   messages := st.messages, tools := toolDefs } with
        | .error e => .error e
        | .ok res =>
          let model := if res.model ≠ "" then res.model else st.model
          let (stepMessages, messages) :=
            match res.messages with
            | some ms => (ms, ms)
            | none => (st.messages, st.messages)
          let activeTools := res.activeTools.getD []
          .ok (model, stepMessages, messages, activeTools)
    match prep with
    | .error e => .error e
    | .ok (model, stepMessages, messages, curActiveTools) =>
      let callTools :=
        if curActiveTools ≠ [] then
          toolDefs.filter (fun td => curActiveTools.contains td.name)
        else toolDefs
      let _callReq : Request := { model := model, messages := stepMessages, tools := callTools }
      let final := turns stepNumber
      let aggUsage := AddUsage st.aggUsage final.usage
      let messages := messages ++ [final.message]
      let responseMessages := st.responseMessages ++ [final.message]
      let calls := ExtractToolCalls final.message
      let step : Step :=
        { stepNumber := stepNumber, response := final, toolCalls := calls,
          toolResults := [], activeTools := curActiveTools }
      if calls = [] then
        .ok (final,
          { model := model, messages := messages, aggUsage := aggUsage,
            steps := st.steps ++ [step], responseMessages := responseMessages,
            stepNumber := stepNumber })
      else
        match exec with
        | none => .error .noExecutor
        | some ex =>
          match ex calls with
          | .error e => .error e
          | .ok results =>
            let messages := messages ++ results
            let responseMessages := responseMessages ++ results
            let steps := st.steps ++ [{ step with toolResults := results }]
            let stop :=
              match stopWhen with
              | some f => f { stepNumber := stepNumber, steps := steps, messages := messages }
              | none => false
            if stop then
              .ok (final,
                { model := model, messages := messages, aggUsage := aggUsage,
                  steps := steps, responseMessages := responseMessages,
                  stepNumber := stepNumber })
            else
              if stepNumber + 1 ≥ maxIterations then
                .error (.capExceeded maxIterations)
              else
                streamLoop turns exec stopWhen prepareStep maxIterations toolDefs fuel
                  { model := model, messages := messages, aggUsage := aggUsage,
                    steps := steps, responseMessages := responseMessages,
                    stepNumber := stepNumber + 1 }

/-- The observable outcome of a streaming run once `Next` has returned
false: either `Err()`, or (`Final()`, `Usage()`, `Steps()`,
`ResponseMessages()`). -/
structure StreamOutcome where
  final : Response
  usage : Usage
  steps : List Step
  responseMessages : List Message
  deriving Repr, DecidableEq

/-- Reads the observable fields (`Final()`, `Usage()`, `Steps()`,
`ResponseMessages()`) out of an exhausted stream's final response and
state. -/
def exhaustedOutcome (p : Response × LoopState) : StreamOutcome :=
  { final := p.1, usage := p.2.aggUsage, steps := p.2.steps,
    responseMessages := p.2.responseMessages }

/-- Mirrors `text.NewStream` followed by driving the stream to
exhaustion: default the cap, copy the request's message and tool
slices into the struct, and run `Next` until it returns false. -/
def streamRun (turns : Nat → Response) (exec : Option Executor)
    (opts : Options) (req : Request) : Except GenError StreamOutcome :=
  let maxIterations := normalizeMaxIterations opts.maxIterations
  (streamLoop turns exec opts.stopWhen opts.prepareStep maxIterations req.tools
      maxIterations
      { model := req.model, messages := req.messages, aggUsage := Usage.zero,
        steps := [], responseMessages := [], stepNumber := 0 }).map exhaustedOutcome

/-- The observable fields of a blocking `GenerateResult`, in the shape
exposed by the streaming engine's accessors; used to compare the two
engines. -/
def toOutcome (res : GenerateResult) : StreamOutcome :=
  { final := res.response, usage := res.aggregatedUsage,
    steps := res.steps, responseMessages := res.responseMessages }


/-- Core simulation: from any aligned state, the streaming loop and the
blocking loop produce the same observable outcome, provided the
`PrepareStep` hook (if any) does not depend on the `request.messages`
field of its event — the one field on which the two engines feed it
different data. -/
theorem streamLoop_matches_genLoop
    (turns : Nat → Response) (exec : Option Executor)
    (stopWhen : Option (StopWhenEvent → Bool))
    (prepareStep : Option (PrepareStepEvent → Except GenError PrepareStepResult))
    (maxIterations : Nat) (toolDefs : List ToolDefinition)
    (hps : ∀ ps, prepareStep = some ps → ∀ e ms,
        ps { e with request := { e.request with messages := ms } } = ps e) :
    ∀ (r : Nat) (st : LoopState), st.stepNumber + r = maxIterations →
      (streamLoop turns exec stopWhen prepareStep maxIterations toolDefs r st).map exhaustedOutcome
        = (genLoop turns exec stopWhen prepareStep maxIterations toolDefs r st).map toOutcome := by
  intro r
  induction r with
  | zero => intro st hinv; rfl
  | succ r ih =>
    intro st hinv
    rw [streamLoop.eq_def, genLoop.eq_def]
    simp only
    rcases hpss : prepareStep with _ | ps
    case _ =>
      rw [hpss] at ih
      simp only
      split
      case _ hcalls => rfl
      case _ hcalls =>
        rcases exec with _ | ex
        · rfl
        · simp only
          split
          case _ e hex => rfl
          case _ results hex =>
            rcases r with _ | r
            · have hcap : st.stepNumber + 1 ≥ maxIterations := by omega
              rw [if_pos hcap]
              split
              · rfl
              · rfl
            · have hcap : ¬ st.stepNumber + 1 ≥ maxIterations := by omega
              rw [if_neg hcap]
              split
              · rfl
              · refine ih _ ?_
                show st.stepNumber + 1 + (r + 1) = maxIterations
                omega
    case _ =>
      rw [hpss] at ih
      simp only
      have hev : ps { stepNumber := st.stepNumber, steps := st.steps,
                      request := { model := st.model, messages := st.messages, tools := [] },
                      messages := st.messages, tools := toolDefs }
          = ps { stepNumber := st.stepNumber, steps := st.steps,
                 request := { model := st.model, messages := [], tools := [] },
                 messages := st.messages, tools := toolDefs } := by
        simpa using hps ps hpss
          { stepNumber := st.stepNumber, steps := st.steps,
            request := { model := st.model, messages := [], tools := [] },
            messages := st.messages, tools := toolDefs } st.messages
      rw [hev]
      rcases hres : ps { stepNumber := st.stepNumber, steps := st.steps,
                         request := { model := st.model, messages := [], tools := [] },
                         messages := st.messages, tools := toolDefs } with e | res
      · simp only [hres]
        rfl
      · simp only [hres]
        split
        case _ hcalls => rfl
        case _ hcalls =>
          rcases exec with _ | ex
          · rfl
          · simp only
            split
            case _ e hex => rfl
            case _ results hex =>
              rcases r with _ | r
              · have hcap : st.stepNumber + 1 ≥ maxIterations := by omega
                rw [if_pos hcap]
                split
                · rfl
                · rfl
              · have hcap : ¬ st.stepNumber + 1 ≥ maxIterations := by omega
                rw [if_neg hcap]
                split
                · rfl
                · refine ih _ ?_
                  show st.stepNumber + 1 + (r + 1) = maxIterations
                  omega

/-- Entry-point form of the simulation: the streaming run equals the
blocking run mapped to its observable fields, for `PrepareStep` hooks
insensitive to the event's `request.messages`. -/
theorem streamRun_eq_generate (turns : Nat → Response) (exec : Option Executor)
    (opts : Options) (req : Request)
    (hps : ∀ ps, opts.prepareStep = some ps → ∀ e ms,
        ps { e with request := { e.request with messages := ms } } = ps e) :
    streamRun turns exec opts req = (Generate turns exec opts req).map toOutcome :=
  streamLoop_matches_genLoop turns exec opts.stopWhen opts.prepareStep
    (normalizeMaxIterations opts.maxIterations) req.tools hps
    (normalizeMaxIterations opts.maxIterations)
    { model := req.model, messages := req.messages, aggUsage := Usage.zero,
      steps := [], responseMessages := [], stepNumber := 0 } (by simp)

/- Concrete fixtures used by witnesses and counterexamples below. -/

/-- A user message. -/
def userMsg : Message :=
  { role := .user, content := [.text "hi"], name := "", toolCallID := "" }

/-- A terminal assistant response with no tool calls. -/
def noCallResp : Response :=
  { message := { role := .assistant, content := [.text "3"], name := "", toolCallID := "" },
    usage := ⟨1, 2, 3⟩, finishReason := "stop" }

/-- An assistant response whose only content is one tool call. -/
def callResp : Response :=
  { message := { role := .assistant,
                 content := [.toolCall { id := "c1", name := "add", args := "\x7b\"a\":1\x7d" }],
                 name := "", toolCallID := "" },
    usage := ⟨4, 5, 9⟩, finishReason := "tool_calls" }

/-- A tool-result message for `callResp`'s call. -/
def toolMsg : Message :=
  { role := .tool, content := [.text "3"], name := "add", toolCallID := "c1" }

/-- An executor that always succeeds with one tool-result message. -/
def okExec : Executor := fun _ => .ok [toolMsg]

/-- A request with one user message and no tools. -/
def req0 : Request := { model := "m", messages := [userMsg], tools := [] }

/-- A fixed provider turn sequence: one tool-calling turn, then a
terminal turn (the spec's example scenario A). -/
def turnsA : Nat → Response := fun n => if n = 0 then callResp else noCallResp

/-- Default options: no hooks, defaulted iteration cap. -/
def optsDefault : Options :=
  { maxIterations := 0, stopWhen := none, prepareStep := none }

/-- A `PrepareStep` hook that reads the `request.messages` field of its
event — the field on which the two engines disagree. -/
def psReqSensitive : PrepareStepEvent → Except GenError PrepareStepResult := fun e =>
  .ok { model := "", messages := none,
        activeTools := some (if e.request.messages = [] then ["a"] else ["b"]) }

/-- Options carrying the request-sensitive `PrepareStep` hook. -/
def optsPS : Options :=
  { maxIterations := 0, stopWhen := none, prepareStep := some psReqSensitive }

/-- C1 (counterexample): the claim as stated — identical outcomes for
*every* run over a fixed turn sequence — fails. With a `PrepareStep`
hook that inspects `event.Request.Messages`, the blocking loop (which
passes the request with its message slice cleared, `Generate` lines
394–397 and 406) and the streaming engine (whose `start` fills
`req.Messages` with the current conversation before building the
event, lines 314–315) record different `ActiveTools` in their steps. -/
theorem stream_generate_divergence_via_prepareStep :
    streamRun turnsA (some okExec) optsPS req0
      ≠ (Generate turnsA (some okExec) optsPS req0).map toOutcome := by
  decide

/-- C1 (amended): for any fixed sequence of provider turns, the
streaming engine's final response, aggregated usage, recorded steps
and message list are structurally identical to the blocking loop's —
including identical errors — provided the `PrepareStep` hook, if
configured, does not depend on the `request` messages embedded in its
event (in particular whenever `PrepareStep` is absent). Streaming
deltas affect only what the caller observes mid-stream, never the
outcome. -/
theorem stream_run_refines_blocking_generate (turns : Nat → Response)
    (exec : Option Executor) (opts : Options) (req : Request)
    (hps : ∀ ps, opts.prepareStep = some ps → ∀ e ms,
        ps { e with request := { e.request with messages := ms } } = ps e) :
    streamRun turns exec opts req = (Generate turns exec opts req).map toOutcome :=
  streamRun_eq_generate turns exec opts req hps

/-- C1 witness: the amended determinism law at a concrete two-turn
tool-calling run with no hooks. -/
theorem stream_run_refines_blocking_generate_witness :
    streamRun turnsA (some okExec) optsDefault req0
      = (Generate turnsA (some okExec) optsDefault req0).map toOutcome :=
  stream_run_refines_blocking_generate turnsA (some okExec) optsDefault req0
    (fun _ h => nomatch h)

/-- The spec's usage law: `u` equals the field-wise sum (prompt,
completion and total token counts added separately) of the usage
carried in each recorded step's response. -/
def UsageIsFieldwiseSumOfSteps (u : Usage) (steps : List Step) : Prop :=
  u.promptTokens = (steps.map fun s => s.response.usage.promptTokens).sum ∧
  u.completionTokens = (steps.map fun s => s.response.usage.completionTokens).sum ∧
  u.totalTokens = (steps.map fun s => s.response.usage.totalTokens).sum

/-- Appending a step while adding its response's usage preserves the
field-wise sum law. -/
theorem usageSum_snoc (u : Usage) (steps : List Step) (s : Step) (v : Usage)
    (h : UsageIsFieldwiseSumOfSteps u steps)
    (hv : v = AddUsage u s.response.usage) :
    UsageIsFieldwiseSumOfSteps v (steps ++ [s]) := by
  obtain ⟨h1, h2, h3⟩ := h
  subst hv
  refine ⟨?_, ?_, ?_⟩ <;>
    simp [AddUsage, List.map_append, List.sum_append, h1, h2, h3]

/-- Along every successful blocking run, the aggregated usage stays the
field-wise sum of the recorded steps' usages. -/
theorem genLoop_usage (turns : Nat → Response) (exec : Option Executor)
    (stopWhen : Option (StopWhenEvent → Bool))
    (prepareStep : Option (PrepareStepEvent → Except GenError PrepareStepResult))
    (maxIterations : Nat) (toolDefs : List ToolDefinition) :
    ∀ (r : Nat) (st : LoopState) (res : GenerateResult),
      genLoop turns exec stopWhen prepareStep maxIterations toolDefs r st = .ok res →
      UsageIsFieldwiseSumOfSteps st.aggUsage st.steps →
      UsageIsFieldwiseSumOfSteps res.aggregatedUsage res.steps := by
  intro r
  induction r with
  | zero => intro st res h; exact absurd h (by rw [genLoop.eq_def]; simp)
  | succ r ih =>
    intro st res h hbase
    rw [genLoop.eq_def] at h
    simp only at h
    rcases hpss : prepareStep with _ | ps
    all_goals rw [hpss] at ih h
    case _ =>
      simp only at h
      split at h
      case _ hcalls =>
        injection h with h
        subst h
        exact usageSum_snoc _ _ _ _ hbase rfl
      case _ hcalls =>
        rcases exec with _ | ex
        · exact absurd h (by simp)
        · simp only at h
          split at h
          case _ e hex => exact absurd h (by simp)
          case _ results hex =>
            split at h
            case _ hstop =>
              injection h with h
              subst h
              exact usageSum_snoc _ _ _ _ hbase rfl
            case _ hstop =>
              exact ih _ _ h (usageSum_snoc _ _ _ _ hbase rfl)
    case _ =>
      simp only at h
      rcases hres : ps { stepNumber := st.stepNumber, steps := st.steps,
                         request := { model := st.model, messages := [], tools := [] },
                         messages := st.messages, tools := toolDefs } with e | pres
      · simp only [hres] at h
        exact absurd h (by simp)
      · simp only [hres] at h
        split at h
        case _ hcalls =>
          injection h with h
          subst h
          exact usageSum_snoc _ _ _ _ hbase rfl
        case _ hcalls =>
          rcases exec with _ | ex
          · exact absurd h (by simp)
          · simp only at h
            split at h
            case _ e hex => exact absurd h (by simp)
            case _ results hex =>
              split at h
              case _ hstop =>
                injection h with h
                subst h
                exact usageSum_snoc _ _ _ _ hbase rfl
              case _ hstop =>
                exact ih _ _ h (usageSum_snoc _ _ _ _ hbase rfl)

/-- Along every successful streaming run, the aggregated usage stays
the field-wise sum of the recorded steps' usages. -/
theorem streamLoop_usage (turns : Nat → Response) (exec : Option Executor)
    (stopWhen : Option (StopWhenEvent → Bool))
    (prepareStep : Option (PrepareStepEvent → Except GenError PrepareStepResult))
    (maxIterations : Nat) (toolDefs : List ToolDefinition) :
    ∀ (r : Nat) (st : LoopState) (p : Response × LoopState),
      streamLoop turns exec stopWhen prepareStep maxIterations toolDefs r st = .ok p →
      UsageIsFieldwiseSumOfSteps st.aggUsage st.steps →
      UsageIsFieldwiseSumOfSteps p.2.aggUsage p.2.steps := by
  intro r
  induction r with
  | zero => intro st p h; exact absurd h (by rw [streamLoop.eq_def]; simp)
  | succ r ih =>
    intro st p h hbase
    rw [streamLoop.eq_def] at h
    simp only at h
    rcases hpss : prepareStep with _ | ps
    all_goals rw [hpss] at ih h
    case _ =>
      simp only at h
      split at h
      case _ hcalls =>
        injection h with h
        subst h
        exact usageSum_snoc _ _ _ _ hbase rfl
      case _ hcalls =>
        rcases exec with _ | ex
        · exact absurd h (by simp)
        · simp only at h
          split at h
          case _ e hex => exact absurd h (by simp)
          case _ results hex =>
            split at h
            case _ hstop =>
              injection h with h
              subst h
              exact usageSum_snoc _ _ _ _ hbase rfl
            case _ hstop =>
              split at h
              case _ hcap => exact absurd h (by simp)
              case _ hcap =>
                exact ih _ _ h (usageSum_snoc _ _ _ _ hbase rfl)
    case _ =>
      simp only at h
      rcases hres : ps { stepNumber := st.stepNumber, steps := st.steps,
                         request := { model := st.model, messages := st.messages, tools := [] },
                         messages := st.messages, tools := toolDefs } with e | pres
      · simp only [hres] at h
        exact absurd h (by simp)
      · simp only [hres] at h
        split at h
        case _ hcalls =>
          injection h with h
          subst h
          exact usageSum_snoc _ _ _ _ hbase rfl
        case _ hcalls =>
          rcases exec with _ | ex
          · exact absurd h (by simp)
          · simp only at h
            split at h
            case _ e hex => exact absurd h (by simp)
            case _ results hex =>
              split at h
              case _ hstop =>
                injection h with h
                subst h
                exact usageSum_snoc _ _ _ _ hbase rfl
              case _ hstop =>
                split at h
                case _ hcap => exact absurd h (by simp)
                case _ hcap =>
                  exact ih _ _ h (usageSum_snoc _ _ _ _ hbase rfl)

/-- C3: for every run of the blocking or streaming step loop that
returns a result, the aggregated usage equals the field-wise sum
(prompt, completion and total token counts added separately) of the
usage carried in each recorded step's response, over every turn
including the terminal one. -/
theorem aggregated_usage_equals_fieldwise_step_sum :
    (∀ (turns : Nat → Response) (exec : Option Executor) (opts : Options)
        (req : Request) (res : GenerateResult),
      Generate turns exec opts req = .ok res →
      UsageIsFieldwiseSumOfSteps res.aggregatedUsage res.steps) ∧
    (∀ (turns : Nat → Response) (exec : Option Executor) (opts : Options)
        (req : Request) (out : StreamOutcome),
      streamRun turns exec opts req = .ok out →
      UsageIsFieldwiseSumOfSteps out.usage out.steps) := by
  constructor
  · intro turns exec opts req res h
    unfold Generate at h
    exact genLoop_usage turns exec opts.stopWhen opts.prepareStep
      (normalizeMaxIterations opts.maxIterations) req.tools
      (normalizeMaxIterations opts.maxIterations) _ res h
      (by refine ⟨rfl, rfl, rfl⟩)
  · intro turns exec opts req out h
    unfold streamRun at h
    simp only at h
    cases hsl : streamLoop turns exec opts.stopWhen opts.prepareStep
        (normalizeMaxIterations opts.maxIterations) req.tools
        (normalizeMaxIterations opts.maxIterations)
        { model := req.model, messages := req.messages, aggUsage := Usage.zero,
          steps := [], responseMessages := [], stepNumber := 0 } with
    | error e => rw [hsl] at h; exact absurd h (by simp [Except.map])
    | ok p =>
      rw [hsl] at h
      have hout : out = exhaustedOutcome p := by
        simpa [Except.map] using h.symm
      have := streamLoop_usage turns exec opts.stopWhen opts.prepareStep
        (normalizeMaxIterations opts.maxIterations) req.tools
        (normalizeMaxIterations opts.maxIterations) _ p hsl
        (by refine ⟨rfl, rfl, rfl⟩)
      rw [hout]
      exact this

/-- A one-turn terminal provider. -/
def turns1 : Nat → Response := fun _ => noCallResp

/-- The blocking result of the one-turn run. -/
def res1 : GenerateResult :=
  { response := noCallResp, aggregatedUsage := ⟨1, 2, 3⟩,
    steps := [{ stepNumber := 0, response := noCallResp, toolCalls := [],
                toolResults := [], activeTools := [] }],
    responseMessages := [noCallResp.message] }

/-- The streaming outcome of the one-turn run. -/
def out1 : StreamOutcome :=
  { final := noCallResp, usage := ⟨1, 2, 3⟩,
    steps := [{ stepNumber := 0, response := noCallResp, toolCalls := [],
                toolResults := [], activeTools := [] }],
    responseMessages := [noCallResp.message] }

/-- C3 witness: the usage law evaluated on a concrete one-turn run in
both engines. -/
theorem aggregated_usage_equals_fieldwise_step_sum_witness :
    (Generate turns1 none optsDefault req0 = .ok res1 ∧
      UsageIsFieldwiseSumOfSteps res1.aggregatedUsage res1.steps) ∧
    (streamRun turns1 none optsDefault req0 = .ok out1 ∧
      UsageIsFieldwiseSumOfSteps out1.usage out1.steps) :=
  ⟨⟨by decide, aggregated_usage_equals_fieldwise_step_sum.1 turns1 none optsDefault req0 res1 (by decide)⟩,
   ⟨by decide, aggregated_usage_equals_fieldwise_step_sum.2 turns1 none optsDefault req0 out1 (by decide)⟩⟩

/-- C7: for every request whose first model turn contains no tool
calls, the blocking step loop terminates successfully after exactly one
recorded step, for every value of maxIterations — including zero and
negative values, which the entry defaulting replaces by 5 — and the
final response is that first turn. Stated for runs without a
`PrepareStep` hook (the claim's loop has no per-turn overrides);
`StopWhen` is arbitrary since it is never consulted on a turn without
tool results. -/
theorem first_turn_without_tool_calls_terminates_in_one_step
    (mi : Int) (stopWhen : Option (StopWhenEvent → Bool))
    (turns : Nat → Response) (exec : Option Executor) (req : Request)
    (h0 : ExtractToolCalls (turns 0).message = []) :
    ∃ res, Generate turns exec
        { maxIterations := mi, stopWhen := stopWhen, prepareStep := none } req = .ok res
      ∧ res.steps.length = 1 ∧ res.response = turns 0 := by
  unfold Generate
  have hMI : ∃ k, normalizeMaxIterations mi = k + 1 := by
    unfold normalizeMaxIterations
    split
    · exact ⟨4, rfl⟩
    · rename_i hmi
      refine ⟨mi.toNat - 1, ?_⟩
      omega
  obtain ⟨k, hk⟩ := hMI
  rw [hk, genLoop.eq_def]
  simp only
  rw [if_pos h0]
  exact ⟨_, rfl, by simp, rfl⟩

/-- When every turn produces tool calls, dispatch succeeds, and the
stop predicate never fires, the blocking loop always runs into the
iteration cap. -/
theorem genLoop_always_cap (turns : Nat → Response) (ex : Executor)
    (stopWhen : Option (StopWhenEvent → Bool))
    (maxIterations : Nat) (toolDefs : List ToolDefinition)
    (hcalls : ∀ n, ExtractToolCalls (turns n).message ≠ [])
    (hex : ∀ cs, ∃ ms, ex cs = .ok ms)
    (hstop : ∀ f, stopWhen = some f → ∀ e, f e = false) :
    ∀ (r : Nat) (st : LoopState),
      genLoop turns (some ex) stopWhen none maxIterations toolDefs r st
        = .error (.capExceeded maxIterations) := by
  intro r
  induction r with
  | zero => intro st; rw [genLoop.eq_def]
  | succ r ih =>
    intro st
    rw [genLoop.eq_def]
    simp only
    rw [if_neg (hcalls st.stepNumber)]
    obtain ⟨ms, hms⟩ := hex (ExtractToolCalls (turns st.stepNumber).message)
    simp only [hms]
    rcases hsw : stopWhen with _ | f
    · rw [hsw] at ih
      simp only [hsw]
      rw [if_neg (by simp)]
      exact ih _
    · rw [hsw] at ih
      simp only [hsw, hstop f hsw]
      rw [if_neg (by simp)]
      exact ih _

/-- C8: if the step loop completes `maxIterations` consecutive turns
that all produced tool calls, with dispatch succeeding and the stop
predicate never firing, it fails with a bounded-iteration error whose
message names the (defaulted) cap. -/
theorem loop_cap_error_names_cap (mi : Int) (turns : Nat → Response)
    (ex : Executor) (stopWhen : Option (StopWhenEvent → Bool)) (req : Request)
    (hcalls : ∀ n, ExtractToolCalls (turns n).message ≠ [])
    (hex : ∀ cs, ∃ ms, ex cs = .ok ms)
    (hstop : ∀ f, stopWhen = some f → ∀ e, f e = false) :
    ∃ e, Generate turns (some ex)
        { maxIterations := mi, stopWhen := stopWhen, prepareStep := none } req = .error e
      ∧ e.message = "tool loop exceeded max iterations ("
          ++ toString (normalizeMaxIterations mi) ++ ")" := by
  refine ⟨.capExceeded (normalizeMaxIterations mi), ?_, rfl⟩
  unfold Generate
  exact genLoop_always_cap turns ex stopWhen (normalizeMaxIterations mi) req.tools
    hcalls hex hstop (normalizeMaxIterations mi) _

/-- C8 witness: `maxIterations = 1` with a model that always calls a
tool yields the bounded-iteration error naming 1. -/
theorem loop_cap_error_names_cap_witness :
    ∃ e, Generate (fun _ => callResp) (some okExec)
        { maxIterations := 1, stopWhen := none, prepareStep := none } req0 = .error e
      ∧ e.message = "tool loop exceeded max iterations (1)" :=
  loop_cap_error_names_cap 1 (fun _ => callResp) okExec none req0
    (fun _ => by show ExtractToolCalls callResp.message ≠ []; decide)
    (fun _ => ⟨[toolMsg], rfl⟩) (fun _ h => nomatch h)

/-- C7 witness: a first terminal turn gives a one-step run even with
`maxIterations = -3` (defaulted to 5). -/
theorem first_turn_without_tool_calls_terminates_in_one_step_witness :
    ∃ res, Generate turns1 none
        { maxIterations := -3, stopWhen := none, prepareStep := none } req0 = .ok res
      ∧ res.steps.length = 1 ∧ res.response = turns1 0 :=
  first_turn_without_tool_calls_terminates_in_one_step (-3) none turns1 none req0
    (by decide)

end Text

/-- Mirrors `provider.ToolCallDelta`: a streamed fragment of one tool
call, keyed by position. -/
structure ToolCallDelta where
  index : Nat
  id : String
  name : String
  argumentsDelta : String
  deriving Repr, DecidableEq

namespace Object

/-- Mirrors `object.ReturnToolName`. -/
def ReturnToolName : String := "__ai_return_json"

/-- Mirrors `object.systemText`. -/
def systemText (text : String) : Message :=
  { role := .system, content := [.text text], name := "", toolCallID := "" }

/-- Mirrors `object.mustCallPrompt`. -/
def mustCallPrompt : String :=
  "You did not call the tool " ++ ReturnToolName
    ++ ". Call it with the final JSON object as arguments."

/-- Mirrors `object.correctionPrompt`. Go truncates at 4000 *bytes*;
the model uses 4000 characters (`String.take`), which agrees on ASCII
JSON. -/
def correctionPrompt (err raw : String) : String :=
  let s := if raw.length > 4000 then raw.take 4000 ++ "…" else raw
  "The previous JSON was invalid or did not match the schema.\nError:\n" ++ err
    ++ "\nPrevious JSON:\n" ++ s ++ "\nReturn ONLY corrected JSON (no extra text)."

/-- Mirrors `object.prependSystem`. -/
def prependSystem (msgs : List Message) : List Message :=
  systemText ("You must return the final result by calling the tool " ++ ReturnToolName
    ++ " with arguments matching the provided JSON schema. Do not return the result as plain text.")
    :: msgs

/-- Mirrors `object.prependJSONOnlySystem`. -/
def prependJSONOnlySystem (msgs : List Message) : List Message :=
  systemText "Return ONLY valid JSON matching the provided schema. Do not include backticks, markdown, or any extra text."
    :: msgs

/-- Mirrors `object.findReturnArgs`: the args of the first content part
that is a call of the synthetic return tool. -/
def findReturnArgs (m : Message) : Option String :=
  m.content.findSome? fun p =>
    match p with
    | .toolCall tc => if tc.name = ReturnToolName then some tc.args else none
    | _ => none

/-- Mirrors `object.filterNonReturn`. -/
def filterNonReturn (calls : List ToolCallPart) : List ToolCallPart :=
  calls.filter fun c => c.name ≠ ReturnToolName

/-- Mirrors `object.toolNameCollides`. -/
def toolNameCollides (tools : List ToolDefinition) (name : String) : Bool :=
  tools.any fun t => t.name = name

/-- Mirrors `object.extractText`: concatenation of the text parts. -/
def extractText (m : Message) : String :=
  m.content.foldl (fun b p =>
    match p with
    | .text t => b ++ t
    | _ => b) ""

/-- Mirrors `object.Options`. -/
structure Options where
  strict : Bool
  maxRetries : Int
  maxIterations : Int

/-- Mirrors `object.GenerateResult[T]`. Go zero values (`T` zero, nil
`RawMessage`, zero `Response`) are `none`/`Usage.zero`. -/
structure GenerateResult (T : Type) where
  object : Option T
  raw : Option String
  lastResponse : Option Response
  usage : Usage
  deriving Repr, DecidableEq

/-- The zero `object.GenerateResult[T]` value. -/
def zeroResult (T : Type) : GenerateResult T :=
  { object := none, raw := none, lastResponse := none, usage := Usage.zero }

/-- The errors `object.Generate`/`generateJSONOnly` produce.
`validation e` is the unwrapped validator or decode error handed back
as data in non-strict mode; `invalidJson e` is the strict-mode
`fmt.Errorf("invalid json: %w", e)`; `didNotCallReturn` is
`fmt.Errorf("model did not call %q", ReturnToolName)`; `external`
carries an executor failure. -/
inductive ObjError where
  | validation (msg : String)
  | invalidJson (msg : String)
  | didNotCallReturn
  | capExceeded (n : Nat)
  | noExecutor
  | external (msg : String)
  | schemaRequired
  | toolNameCollision
  | unreachableFallthrough
  deriving Repr, DecidableEq

/-- The observable outcome of one enforcer run: Go's
`(GenerateResult[T], error)` pair, instrumented (observationally) with
the number of provider calls made and the request sent on each call —
exactly the data the claims quantify over. -/
structure RunOutcome (T : Type) where
  result : GenerateResult T
  err : Option ObjError
  callCount : Nat
  sentRequests : List Request
  deriving Repr, DecidableEq

/-- The loop state of `object.Generate`: the conversation, the retry
counter and pending corrective messages, the usage aggregate and last
response, plus the call instrumentation. -/
structure ObjState where
  messages : List Message
  retryCount : Nat
  retryMessages : List Message
  aggUsage : Usage
  last : Option Response
  callCount : Nat
  sentRequests : List Request

/-- The `for iter < opts.MaxIterations` loop of `object.Generate`
(lines 376–458 of the `object` package source), one provider call per
iteration, indexed by the running call count. `validate s raw` is the
black-box `schema.Validate` (`some e` = failure), `unmarshal` the
black-box `json.Unmarshal` into `T`. -/
def objLoop (T : Type) (validate : String → String → Option String)
    (unmarshal : String → Except String T) (turns : Nat → Response)
    (exec : Option (List ToolCallPart → Except String (List Message)))
    (model : String) (toolsDefs : List ToolDefinition) (schemaJSON : String)
    (strict : Bool) (maxRetries : Nat) (maxIterations : Nat) :
    Nat → ObjState → RunOutcome T
  | 0, st =>
    { result := zeroResult T, err := some (.capExceeded maxIterations),
      callCount := st.callCount, sentRequests := st.sentRequests }
  | remaining + 1, st =>
    let callReq : Request :=
      { model := model, messages := st.messages ++ st.retryMessages, tools := toolsDefs }
    let resp := turns st.callCount
    let callCount := st.callCount + 1
    let sentRequests := st.sentRequests ++ [callReq]
    let aggUsage := AddUsage st.aggUsage resp.usage
    let messages := st.messages ++ [resp.message]
    match findReturnArgs resp.message with
    | some raw =>
      match validate schemaJSON raw with
      | some verr =>
        if !strict then
          { result := { object := none, raw := some raw, lastResponse := some resp,
                        usage := aggUsage },
            err := some (.validation verr),
            callCount := callCount, sentRequests := sentRequests }
        else if st.retryCount ≥ maxRetries then
          { result := zeroResult T, err := some (.invalidJson verr),
            callCount := callCount, sentRequests := sentRequests }
        else
          objLoop T validate unmarshal turns exec model toolsDefs schemaJSON
            strict maxRetries maxIterations remaining
            { messages := messages, retryCount := st.retryCount + 1,
              retryMessages := [systemText (correctionPrompt verr raw)],
              aggUsage := aggUsage, last := some resp,
              callCount := callCount, sentRequests := sentRequests }
      | none =>
        match unmarshal raw with
        | .error uerr =>
          if !strict then
            { result := { object := none, raw := some raw, lastResponse := some resp,
                          usage := aggUsage },
              err := some (.validation uerr),
              callCount := callCount, sentRequests := sentRequests }
          else if st.retryCount ≥ maxRetries then
            { result := zeroResult T, err := some (.invalidJson uerr),
              callCount := callCount, sentRequests := sentRequests }
          else
            objLoop T validate unmarshal turns exec model toolsDefs schemaJSON
              strict maxRetries maxIterations remaining
              { messages := messages, retryCount := st.retryCount + 1,
                retryMessages := [systemText (correctionPrompt uerr raw)],
                aggUsage := aggUsage, last := some resp,
                callCount := callCount, sentRequests := sentRequests }
        | .ok obj =>
          { result := { object := some obj, raw := some raw, lastResponse := some resp,
                        usage := aggUsage },
            err := none, callCount := callCount, sentRequests := sentRequests }
    | none =>
      let calls := ExtractToolCalls resp.message
      if calls = [] then
        if !strict then
          { result := { object := none, raw := none, lastResponse := some resp,
                        usage := aggUsage },
            err := some .didNotCallReturn,
            callCount := callCount, sentRequests := sentRequests }
        else if st.retryCount ≥ maxRetries then
          { result := zeroResult T, err := some .didNotCallReturn,
            callCount := callCount, sentRequests := sentRequests }
        else
          objLoop T validate unmarshal turns exec model toolsDefs schemaJSON
            strict maxRetries maxIterations remaining
            { messages := messages, retryCount := st.retryCount + 1,
              retryMessages := [systemText mustCallPrompt],
              aggUsage := aggUsage, last := some resp,
              callCount := callCount, sentRequests := sentRequests }
      else
        let nonReturn := filterNonReturn calls
        if nonReturn = [] then
          if !strict then
            { result := { object := none, raw := none, lastResponse := some resp,
                          usage := aggUsage },
              err := some .didNotCallReturn,
              callCount := callCount, sentRequests := sentRequests }
          else if st.retryCount ≥ maxRetries then
            { result := zeroResult T, err := some .didNotCallReturn,
              callCount := callCount, sentRequests := sentRequests }
          else
            objLoop T validate unmarshal turns exec model toolsDefs schemaJSON
              strict maxRetries maxIterations remaining
              { messages := messages, retryCount := st.retryCount + 1,
                retryMessages := [systemText mustCallPrompt],
                aggUsage := aggUsage, last := some resp,
                callCount := callCount, sentRequests := sentRequests }
        else
          match exec with
          | none =>
            { result := zeroResult T, err := some .noExecutor,
              callCount := callCount, sentRequests := sentRequests }
          | some ex =>
            match ex nonReturn with
            | .error e =>
              { result := zeroResult T, err := some (.external e),
                callCount := callCount, sentRequests := sentRequests }
            | .ok results =>
              objLoop T validate unmarshal turns exec model toolsDefs schemaJSON
                strict maxRetries maxIterations remaining
                { messages := messages ++ results, retryCount := st.retryCount,
                  retryMessages := [],
                  aggUsage := aggUsage, last := some resp,
                  callCount := callCount, sentRequests := sentRequests }

/-- Mirrors `object.Generate` (entry): guard the schema and the
reserved tool name, default the budgets, prepend the system
instruction, inject the synthetic return tool, then run the loop. The
`ErrToolsUnsupported` fallback branch is out of this model's provider
interface (the fixed turn sequence cannot fail); `generateJSONOnly`
is embedded separately below. -/
def Generate (T : Type) (validate : String → String → Option String)
    (unmarshal : String → Except String T) (turns : Nat → Response)
    (exec : Option (List ToolCallPart → Except String (List Message)))
    (req : Request) (schemaJSON : String) (opts : Options) : RunOutcome T :=
  if schemaJSON = "" then
    { result := zeroResult T, err := some .schemaRequired, callCount := 0, sentRequests := [] }
  else
    let maxIterations := if opts.maxIterations ≤ 0 then 5 else opts.maxIterations.toNat
    let maxRetries := if opts.maxRetries < 0 then 0 else opts.maxRetries.toNat
    if toolNameCollides req.tools ReturnToolName then
      { result := zeroResult T, err := some .toolNameCollision, callCount := 0, sentRequests := [] }
    else
      let msgs := prependSystem req.messages
      let toolsDefs := req.tools ++
        [{ name := ReturnToolName, description := "Return the final JSON object result.",
           inputSchema := schemaJSON }]
      objLoop T validate unmarshal turns exec req.model toolsDefs schemaJSON
        opts.strict maxRetries maxIterations maxIterations
        { messages := msgs, retryCount := 0, retryMessages := [],
          aggUsage := Usage.zero, last := none, callCount := 0, sentRequests := [] }

/-- The `for attempt <= opts.MaxRetries` loop of
`object.generateJSONOnly`: fuel is the number of attempts the header
still allows (`maxRetries - attempt + 1`); the fallthrough after the
loop is Go's `fmt.Errorf("unreachable")`. -/
def jsonOnlyLoop (T : Type) (validate : String → String → Option String)
    (unmarshal : String → Except String T) (turns : Nat → Response)
    (model : String) (schemaJSON : String) (strict : Bool) (maxRetries : Nat) :
    Nat → List Message → Usage → Nat → List Request → RunOutcome T
  | 0, _, _, callCount, sentRequests =>
    { result := zeroResult T, err := some .unreachableFallthrough,
      callCount := callCount, sentRequests := sentRequests }
  | remaining + 1, msgs, agg, callCount, sentRequests =>
    let attempt := maxRetries - remaining
    let callReq : Request := { model := model, messages := msgs, tools := [] }
    let resp := turns callCount
    let callCount := callCount + 1
    let sentRequests := sentRequests ++ [callReq]
    let agg := AddUsage agg resp.usage
    let raw := extractText resp.message
    match validate schemaJSON raw with
    | some verr =>
      if !strict then
        { result := { object := none, raw := some raw, lastResponse := some resp, usage := agg },
          err := some (.validation verr), callCount := callCount, sentRequests := sentRequests }
      else if attempt = maxRetries then
        { result := zeroResult T, err := some (.invalidJson verr),
          callCount := callCount, sentRequests := sentRequests }
      else
        jsonOnlyLoop T validate unmarshal turns model schemaJSON strict maxRetries
          remaining (msgs ++ [systemText (correctionPrompt verr raw)]) agg callCount sentRequests
    | none =>
      match unmarshal raw with
      | .error uerr =>
        if !strict then
          { result := { object := none, raw := some raw, lastResponse := some resp, usage := agg },
            err := some (.validation uerr), callCount := callCount, sentRequests := sentRequests }
        else if attempt = maxRetries then
          { result := zeroResult T, err := some (.invalidJson uerr),
            callCount := callCount, sentRequests := sentRequests }
        else
          jsonOnlyLoop T validate unmarshal turns model schemaJSON strict maxRetries
            remaining (msgs ++ [systemText (correctionPrompt uerr raw)]) agg callCount sentRequests
      | .ok obj =>
        { result := { object := some obj, raw := some raw, lastResponse := some resp, usage := agg },
          err := none, callCount := callCount, sentRequests := sentRequests }

/-- Mirrors `object.generateJSONOnly`: prepend the JSON-only system
instruction, drop all tools, and run the validate→decode→retry cycle
over the model's plain text, `maxRetries + 1` attempts at most. -/
def generateJSONOnly (T : Type) (validate : String → String → Option String)
    (unmarshal : String → Except String T) (turns : Nat → Response)
    (model : String) (messages : List Message) (schemaJSON : String)
    (strict : Bool) (maxRetries : Nat) : RunOutcome T :=
  jsonOnlyLoop T validate unmarshal turns model schemaJSON strict maxRetries
    (maxRetries + 1) (prependJSONOnlySystem messages) Usage.zero 0 []

/-- The enforcer's `MaxIterations <= 0 → 5` defaulting. -/
def normMaxIterations (mi : Int) : Nat :=
  if mi ≤ 0 then 5 else mi.toNat

/-- The enforcer's `MaxRetries < 0 → 0` defaulting. -/
def normMaxRetries (mr : Int) : Nat :=
  if mr < 0 then 0 else mr.toNat

/-- In strict mode, when every turn calls the return tool with
schema-invalid arguments, the loop consumes the whole retry budget and
fails with the wrapped validation error — provided enough iterations
remain; call `k + (budget left) + 1` provider turns from a state with
`k` calls made. -/
theorem objLoop_always_invalid_strict (T : Type)
    (validate : String → String → Option String) (unmarshal : String → Except String T)
    (turns : Nat → Response) (exec : Option (List ToolCallPart → Except String (List Message)))
    (model : String) (toolsDefs : List ToolDefinition) (schemaJSON : String)
    (maxRetries maxIterations : Nat) (raws errs : Nat → String)
    (hret : ∀ n, findReturnArgs (turns n).message = some (raws n))
    (hbad : ∀ n, validate schemaJSON (raws n) = some (errs n)) :
    ∀ (r : Nat) (st : ObjState), st.retryCount ≤ maxRetries →
      maxRetries - st.retryCount < r →
      (objLoop T validate unmarshal turns exec model toolsDefs schemaJSON
          true maxRetries maxIterations r st).callCount
          = st.callCount + (maxRetries - st.retryCount) + 1 ∧
      (objLoop T validate unmarshal turns exec model toolsDefs schemaJSON
          true maxRetries maxIterations r st).err
          = some (.invalidJson (errs (st.callCount + (maxRetries - st.retryCount)))) ∧
      (objLoop T validate unmarshal turns exec model toolsDefs schemaJSON
          true maxRetries maxIterations r st).result = zeroResult T := by
  intro r
  induction r with
  | zero => intro st hc hr; exact absurd hr (by omega)
  | succ r ih =>
    intro st hc hr
    rw [objLoop.eq_def]
    simp only [hret st.callCount, hbad st.callCount, Bool.not_true]
    rw [if_neg (by simp)]
    by_cases hex : st.retryCount ≥ maxRetries
    · have hceq : st.retryCount = maxRetries := by omega
      rw [if_pos hex]
      refine ⟨?_, ?_, rfl⟩ <;> simp [hceq]
    · rw [if_neg hex]
      have := ih { messages := st.messages ++ [(turns st.callCount).message],
                   retryCount := st.retryCount + 1,
                   retryMessages := [systemText (correctionPrompt (errs st.callCount) (raws st.callCount))],
                   aggUsage := AddUsage st.aggUsage (turns st.callCount).usage,
                   last := some (turns st.callCount),
                   callCount := st.callCount + 1,
                   sentRequests := st.sentRequests ++
                     [{ model := model, messages := st.messages ++ st.retryMessages,
                        tools := toolsDefs }] }
        (by simp only; omega) (by simp only; omega)
      obtain ⟨h1, h2, h3⟩ := this
      refine ⟨?_, ?_, h3⟩
      · rw [h1]; simp only; omega
      · rw [h2]
        have : st.callCount + 1 + (maxRetries - (st.retryCount + 1))
            = st.callCount + (maxRetries - st.retryCount) := by omega
        simp only [this]

/-- In strict mode the JSON-only fallback loop always makes exactly
`maxRetries + 1` provider calls against a model whose text never
validates, then fails with the wrapped validation error. -/
theorem jsonOnlyLoop_always_invalid_strict (T : Type)
    (validate : String → String → Option String) (unmarshal : String → Except String T)
    (turns : Nat → Response) (model : String) (schemaJSON : String)
    (maxRetries : Nat) (errs : Nat → String)
    (hbad : ∀ n, validate schemaJSON (extractText (turns n).message) = some (errs n)) :
    ∀ (r k : Nat), 1 ≤ r → k + r = maxRetries + 1 →
      ∀ (msgs : List Message) (agg : Usage) (log : List Request),
        (jsonOnlyLoop T validate unmarshal turns model schemaJSON true maxRetries
            r msgs agg k log).callCount = maxRetries + 1 ∧
        (jsonOnlyLoop T validate unmarshal turns model schemaJSON true maxRetries
            r msgs agg k log).err = some (.invalidJson (errs maxRetries)) := by
  intro r
  induction r with
  | zero => intro k h1; exact absurd h1 (by omega)
  | succ r ih =>
    intro k h1 h2 msgs agg log
    rw [jsonOnlyLoop.eq_def]
    simp only [hbad k, Bool.not_true]
    rw [if_neg (by simp)]
    by_cases hlast : maxRetries - r = maxRetries
    · have hk : k = maxRetries := by omega
      rw [if_pos hlast]
      subst hk
      exact ⟨rfl, rfl⟩
    · rw [if_neg hlast]
      have hr1 : 1 ≤ r := by omega
      exact ih (k + 1) hr1 (by omega) _ _ _

/-- A validator that rejects everything. -/
def alwaysBadValidator : String → String → Option String := fun _ _ => some "bad"

/-- A decoder that is never reached in the failing scenarios. -/
def neverUnmarshal : String → Except String Nat := fun _ => .error "nope"

/-- A turn that calls the synthetic return tool with fixed arguments. -/
def retResp : Response :=
  { message := { role := .assistant,
                 content := [.toolCall { id := "r1", name := ReturnToolName, args := "X" }],
                 name := "", toolCallID := "" },
    usage := ⟨1, 1, 2⟩, finishReason := "tool_calls" }

/-- A request with no messages and no tools. -/
def reqO : Request := { model := "m", messages := [], tools := [] }

/-- C2 (counterexample): the claim as stated — exactly N+1 provider
calls with `maxRetries = N` in *both* modes — fails in non-strict
mode: with `maxRetries = 1` and a model that always returns
schema-invalid JSON on the return tool, the enforcer returns after the
first failed validation, so one provider call occurs, not two. -/
theorem object_enforcer_retry_bound_divergence :
    (Object.Generate Nat alwaysBadValidator neverUnmarshal (fun _ => retResp) none
        reqO "S" { strict := false, maxRetries := 1, maxIterations := 0 }).callCount = 1 ∧
    (Object.Generate Nat alwaysBadValidator neverUnmarshal (fun _ => retResp) none
        reqO "S" { strict := false, maxRetries := 1, maxIterations := 0 }).callCount ≠ 1 + 1 ∧
    (Object.Generate Nat alwaysBadValidator neverUnmarshal (fun _ => retResp) none
        reqO "S" { strict := false, maxRetries := 1, maxIterations := 0 }).err
      = some (.validation "bad") ∧
    (Object.Generate Nat alwaysBadValidator neverUnmarshal (fun _ => retResp) none
        reqO "S" { strict := false, maxRetries := 1, maxIterations := 0 }).result.raw
      = some "X" := by
  decide

/-- C2 (amended): against a model that returns schema-invalid JSON on
the synthetic return tool on every turn, with `maxRetries = N`:
in strict mode, provided the defaulted budgets satisfy
`N + 1 ≤ maxIterations`, exactly `N + 1` provider calls occur and the
run fails with the wrapped validation error; in non-strict mode
exactly one provider call occurs and the run returns the raw JSON
together with a non-nil validation-error field; and in the JSON-only
fallback loop (strict), exactly `N + 1` calls occur before the same
failure. -/
theorem object_enforcer_retry_bound (T : Type)
    (validate : String → String → Option String) (unmarshal : String → Except String T)
    (turns : Nat → Response) (exec : Option (List ToolCallPart → Except String (List Message)))
    (req : Request) (schemaJSON : String) (opts : Options) (raws errs : Nat → String)
    (hschema : schemaJSON ≠ "")
    (hcol : toolNameCollides req.tools ReturnToolName = false)
    (hret : ∀ n, findReturnArgs (turns n).message = some (raws n))
    (hbad : ∀ n, validate schemaJSON (raws n) = some (errs n)) :
    (opts.strict = true →
      normMaxRetries opts.maxRetries + 1 ≤ normMaxIterations opts.maxIterations →
      (Object.Generate T validate unmarshal turns exec req schemaJSON opts).callCount
          = normMaxRetries opts.maxRetries + 1 ∧
      (Object.Generate T validate unmarshal turns exec req schemaJSON opts).err
          = some (.invalidJson (errs (normMaxRetries opts.maxRetries)))) ∧
    (opts.strict = false →
      (Object.Generate T validate unmarshal turns exec req schemaJSON opts).callCount = 1 ∧
      (Object.Generate T validate unmarshal turns exec req schemaJSON opts).err
          = some (.validation (errs 0)) ∧
      (Object.Generate T validate unmarshal turns exec req schemaJSON opts).result.raw
          = some (raws 0)) ∧
    (∀ (N : Nat) (errs2 : Nat → String),
      (∀ n, validate schemaJSON (extractText (turns n).message) = some (errs2 n)) →
      (generateJSONOnly T validate unmarshal turns req.model req.messages
          schemaJSON true N).callCount = N + 1 ∧
      (generateJSONOnly T validate unmarshal turns req.model req.messages
          schemaJSON true N).err = some (.invalidJson (errs2 N))) := by
  refine ⟨?_, ?_, ?_⟩
  · intro hstrict hbudget
    unfold Object.Generate
    rw [if_neg hschema]
    simp only [hcol, Bool.false_eq_true, if_false, hstrict]
    have h := objLoop_always_invalid_strict T validate unmarshal turns exec req.model
      (req.tools ++ [{ name := ReturnToolName,
                       description := "Return the final JSON object result.",
                       inputSchema := schemaJSON }])
      schemaJSON (if opts.maxRetries < 0 then 0 else opts.maxRetries.toNat)
      (if opts.maxIterations ≤ 0 then 5 else opts.maxIterations.toNat) raws errs hret hbad
      (if opts.maxIterations ≤ 0 then 5 else opts.maxIterations.toNat)
      { messages := prependSystem req.messages, retryCount := 0, retryMessages := [],
        aggUsage := Usage.zero, last := none, callCount := 0, sentRequests := [] }
      (by show 0 ≤ if opts.maxRetries < 0 then 0 else opts.maxRetries.toNat; omega)
      (by
        show (if opts.maxRetries < 0 then 0 else opts.maxRetries.toNat) - 0
            < (if opts.maxIterations ≤ 0 then 5 else opts.maxIterations.toNat)
        have hb := hbudget
        unfold normMaxRetries normMaxIterations at hb
        omega)
    obtain ⟨h1, h2, _⟩ := h
    constructor
    · rw [h1]
      show 0 + ((if opts.maxRetries < 0 then 0 else opts.maxRetries.toNat) - 0) + 1
          = normMaxRetries opts.maxRetries + 1
      unfold normMaxRetries
      omega
    · rw [h2]
      show some (ObjError.invalidJson
          (errs (0 + ((if opts.maxRetries < 0 then 0 else opts.maxRetries.toNat) - 0))))
        = some (ObjError.invalidJson (errs (normMaxRetries opts.maxRetries)))
      have hx : 0 + ((if opts.maxRetries < 0 then 0 else opts.maxRetries.toNat) - 0)
          = normMaxRetries opts.maxRetries := by
        unfold normMaxRetries
        omega
      rw [hx]
  · intro hstrict
    unfold Object.Generate
    rw [if_neg hschema]
    simp only [hcol, Bool.false_eq_true, if_false, hstrict]
    have hMI : ∃ k, (if opts.maxIterations ≤ 0 then 5 else opts.maxIterations.toNat) = k + 1 := by
      split
      · exact ⟨4, rfl⟩
      · rename_i hmi
        exact ⟨opts.maxIterations.toNat - 1, by omega⟩
    obtain ⟨k, hk⟩ := hMI
    rw [hk, objLoop.eq_def]
    simp only [hret 0, hbad 0, Bool.not_false]
    exact ⟨rfl, rfl, rfl⟩
  · intro N errs2 hbad2
    unfold generateJSONOnly
    exact jsonOnlyLoop_always_invalid_strict T validate unmarshal turns req.model
      schemaJSON N errs2 hbad2 (N + 1) 0 (by omega) (by omega) _ _ _

/-- C2 witness: the amended retry law evaluated at a concrete
always-invalid model: strict with `maxRetries = 1` makes 2 calls;
non-strict makes 1 call and surfaces the raw JSON plus the error;
JSON-only strict with budget 2 makes 3 calls. -/
theorem object_enforcer_retry_bound_witness :
    ((Object.Generate Nat alwaysBadValidator neverUnmarshal (fun _ => retResp) none
        reqO "S" { strict := true, maxRetries := 1, maxIterations := 0 }).callCount = 2 ∧
      (Object.Generate Nat alwaysBadValidator neverUnmarshal (fun _ => retResp) none
        reqO "S" { strict := true, maxRetries := 1, maxIterations := 0 }).err
        = some (.invalidJson "bad")) ∧
    ((Object.Generate Nat alwaysBadValidator neverUnmarshal (fun _ => retResp) none
        reqO "S" { strict := false, maxRetries := 1, maxIterations := 0 }).callCount = 1 ∧
      (Object.Generate Nat alwaysBadValidator neverUnmarshal (fun _ => retResp) none
        reqO "S" { strict := false, maxRetries := 1, maxIterations := 0 }).err
        = some (.validation "bad") ∧
      (Object.Generate Nat alwaysBadValidator neverUnmarshal (fun _ => retResp) none
        reqO "S" { strict := false, maxRetries := 1, maxIterations := 0 }).result.raw
        = some "X") ∧
    ((generateJSONOnly Nat alwaysBadValidator neverUnmarshal (fun _ => retResp) "m" []
        "S" true 2).callCount = 3 ∧
      (generateJSONOnly Nat alwaysBadValidator neverUnmarshal (fun _ => retResp) "m" []
        "S" true 2).err = some (.invalidJson "bad")) := by
  have h := object_enforcer_retry_bound Nat alwaysBadValidator neverUnmarshal
    (fun _ => retResp) none reqO "S"
    { strict := true, maxRetries := 1, maxIterations := 0 }
    (fun _ => "X") (fun _ => "bad")
    (by decide)
    (by decide)
    (fun n => by
      show findReturnArgs retResp.message = some "X"
      decide)
    (fun n => by
      show alwaysBadValidator "S" "X" = some "bad"
      decide)
  have h2 := object_enforcer_retry_bound Nat alwaysBadValidator neverUnmarshal
    (fun _ => retResp) none reqO "S"
    { strict := false, maxRetries := 1, maxIterations := 0 }
    (fun _ => "X") (fun _ => "bad")
    (by decide)
    (by decide)
    (fun n => by
      show findReturnArgs retResp.message = some "X"
      decide)
    (fun n => by
      show alwaysBadValidator "S" "X" = some "bad"
      decide)
  refine ⟨⟨(h.1 rfl (by decide)).1, (h.1 rfl (by decide)).2⟩,
          ⟨(h2.2.1 rfl).1, (h2.2.1 rfl).2.1, (h2.2.1 rfl).2.2⟩,
          ?_⟩
  have h3 := (h.2.2) 2 (fun _ => "bad")
    (fun n => by
      show alwaysBadValidator "S" (extractText retResp.message) = some "bad"
      decide)
  exact ⟨h3.1, h3.2⟩

/-- A message with no tool-call parts yields no return-tool arguments. -/
theorem findSome?_return_eq_none (l : List ContentPart)
    (h : (l.filterMap fun p => match p with
          | .toolCall tc => some tc
          | _ => none) = []) :
    (l.findSome? fun p => match p with
      | .toolCall tc => if tc.name = ReturnToolName then some tc.args else none
      | _ => none) = none := by
  induction l with
  | nil => rfl
  | cons p t ih =>
    cases p with
    | text s =>
      simp only [List.filterMap_cons] at h
      simp only [List.findSome?_cons]
      exact ih h
    | toolCall tc =>
      simp [List.filterMap_cons] at h

/-- `findReturnArgs` is `none` on a message without tool calls. -/
theorem findReturnArgs_eq_none_of_no_calls (m : Message)
    (h : ExtractToolCalls m = []) : findReturnArgs m = none :=
  findSome?_return_eq_none m.content h

/-- When no content part calls the return tool, `filterNonReturn`
keeps every extracted call. -/
theorem filterNonReturn_extract_eq_self (l : List ContentPart)
    (h : (l.findSome? fun p => match p with
          | .toolCall tc => if tc.name = ReturnToolName then some tc.args else none
          | _ => none) = none) :
    filterNonReturn (l.filterMap fun p => match p with
        | .toolCall tc => some tc
        | _ => none)
      = l.filterMap fun p => match p with
        | .toolCall tc => some tc
        | _ => none := by
  induction l with
  | nil => rfl
  | cons p t ih =>
    cases p with
    | text s =>
      simp only [List.findSome?_cons] at h
      simp only [List.filterMap_cons]
      exact ih h
    | toolCall tc =>
      simp only [List.findSome?_cons] at h
      by_cases hn : tc.name = ReturnToolName
      · rw [if_pos hn] at h
        simp at h
      · rw [if_neg hn] at h
        simp only [List.filterMap_cons]
        unfold filterNonReturn at ih ⊢
        simp only [List.filter_cons]
        rw [if_pos (by simpa using hn)]
        rw [ih h]

/-- `filterNonReturn` is the identity on the calls of a message whose
`findReturnArgs` is `none`. -/
theorem filterNonReturn_eq_self_of_no_return (m : Message)
    (h : findReturnArgs m = none) :
    filterNonReturn (ExtractToolCalls m) = ExtractToolCalls m :=
  filterNonReturn_extract_eq_self m.content h

/-- In strict mode, when every turn from call index `n0` on produces
no tool calls at all, the loop spends the remaining retry budget on
must-call corrections and fails with `didNotCallReturn`; the first
request it sends is the pending conversation plus the pending
corrective messages. -/
theorem objLoop_mustCall_exhausts (T : Type)
    (validate : String → String → Option String) (unmarshal : String → Except String T)
    (turns : Nat → Response) (exec : Option (List ToolCallPart → Except String (List Message)))
    (model : String) (toolsDefs : List ToolDefinition) (schemaJSON : String)
    (maxRetries maxIterations : Nat) (n0 : Nat)
    (hnone : ∀ n, n0 ≤ n → ExtractToolCalls (turns n).message = []) :
    ∀ (r : Nat) (st : ObjState), n0 ≤ st.callCount → st.retryCount ≤ maxRetries →
      maxRetries - st.retryCount < r →
      (objLoop T validate unmarshal turns exec model toolsDefs schemaJSON
          true maxRetries maxIterations r st).callCount
          = st.callCount + (maxRetries - st.retryCount) + 1 ∧
      (objLoop T validate unmarshal turns exec model toolsDefs schemaJSON
          true maxRetries maxIterations r st).err = some .didNotCallReturn ∧
      ∃ tail, (objLoop T validate unmarshal turns exec model toolsDefs schemaJSON
          true maxRetries maxIterations r st).sentRequests
          = st.sentRequests
            ++ ({ model := model, messages := st.messages ++ st.retryMessages,
                  tools := toolsDefs } :: tail) := by
  intro r
  induction r with
  | zero => intro st h0 hc hr; exact absurd hr (by omega)
  | succ r ih =>
    intro st h0 hc hr
    rw [objLoop.eq_def]
    have hcalls := hnone st.callCount h0
    simp only [findReturnArgs_eq_none_of_no_calls _ hcalls, hcalls, Bool.not_true]
    simp only [if_true]
    rw [if_neg (by simp)]
    by_cases hex : st.retryCount ≥ maxRetries
    · rw [if_pos hex]
      have hceq : st.retryCount = maxRetries := by omega
      refine ⟨by simp [hceq], rfl, [], rfl⟩
    · rw [if_neg hex]
      have := ih { messages := st.messages ++ [(turns st.callCount).message],
                   retryCount := st.retryCount + 1,
                   retryMessages := [systemText mustCallPrompt],
                   aggUsage := AddUsage st.aggUsage (turns st.callCount).usage,
                   last := some (turns st.callCount),
                   callCount := st.callCount + 1,
                   sentRequests := st.sentRequests ++
                     [{ model := model, messages := st.messages ++ st.retryMessages,
                        tools := toolsDefs }] }
        (by show n0 ≤ st.callCount + 1; omega)
        (by show st.retryCount + 1 ≤ maxRetries; omega)
        (by show maxRetries - (st.retryCount + 1) < r; omega)
      obtain ⟨h1, h2, tail, h3⟩ := this
      refine ⟨?_, h2, ?_⟩
      · rw [h1]
        show st.callCount + 1 + (maxRetries - (st.retryCount + 1)) + 1
            = st.callCount + (maxRetries - st.retryCount) + 1
        omega
      · refine ⟨{ model := model,
                  messages := (st.messages ++ [(turns st.callCount).message])
                    ++ [systemText mustCallPrompt],
                  tools := toolsDefs } :: tail, ?_⟩
        rw [h3]
        simp

/-- Provider for the C6 scenario: turn 0 calls only the non-return
tool `add`; every later turn produces no tool calls. -/
def turnsC6 : Nat → Response := fun n => if n = 0 then Text.callResp else Text.noCallResp

/-- The C6 run: strict, `maxRetries = 1`, defaulted iterations, with
an executor answering the `add` call. -/
def runC6 : RunOutcome Nat :=
  Object.Generate Nat alwaysBadValidator neverUnmarshal turnsC6
    (some (fun _ => .ok [Text.toolMsg])) reqO "S"
    { strict := true, maxRetries := 1, maxIterations := 0 }

/-- C6 (counterexample): the claim as stated is false. On a turn with
only non-return tool calls and retry budget available, the enforcer
does not emit the "you must call the return tool" instruction and does
not consume retry budget: the request sent after that turn carries the
dispatched tool result and no corrective instruction, and the run
still performs the dispatch turn plus the full budget of must-call
retries on the later call-free turns (3 calls, not the 2 the claimed
budget consumption would leave) before failing. -/
theorem object_enforcer_nonreturn_mustcall_divergence :
    runC6.callCount = 3 ∧
    runC6.err = some .didNotCallReturn ∧
    runC6.sentRequests.length = 3 ∧
    systemText mustCallPrompt ∉ (runC6.sentRequests.getD 1 reqO).messages ∧
    Text.toolMsg ∈ (runC6.sentRequests.getD 1 reqO).messages ∧
    systemText mustCallPrompt ∈ (runC6.sentRequests.getD 2 reqO).messages := by
  decide

/-- C6 (amended): a turn whose tool calls are all non-return is
dispatched and the loop continues without emitting the must-call
instruction and without consuming retry budget; the "you must call the
return tool" correction (under the validation-failure budget) is
emitted only for turns with no tool calls at all. Concretely: if turn
0 carries only non-return calls, every later turn carries none, and
dispatch succeeds, then (strict mode, budget `N`, enough iterations)
the run makes `N + 2` provider calls — the dispatch turn plus `N + 1`
call-free turns consuming the whole must-call budget — and the second
request carries exactly the conversation plus the tool results, with
no corrective instruction appended. -/
theorem object_enforcer_nonreturn_tool_calls_dispatch (T : Type)
    (validate : String → String → Option String) (unmarshal : String → Except String T)
    (turns : Nat → Response) (ex : List ToolCallPart → Except String (List Message))
    (results : List ToolCallPart → List Message)
    (req : Request) (schemaJSON : String) (opts : Options)
    (hschema : schemaJSON ≠ "")
    (hcol : toolNameCollides req.tools ReturnToolName = false)
    (hstrict : opts.strict = true)
    (hbudget : normMaxRetries opts.maxRetries + 2 ≤ normMaxIterations opts.maxIterations)
    (h0 : findReturnArgs (turns 0).message = none)
    (h0c : ExtractToolCalls (turns 0).message ≠ [])
    (hlater : ∀ n, 1 ≤ n → ExtractToolCalls (turns n).message = [])
    (hexec : ∀ cs, ex cs = .ok (results cs)) :
    (Object.Generate T validate unmarshal turns (some ex) req schemaJSON opts).callCount
        = normMaxRetries opts.maxRetries + 2 ∧
    (Object.Generate T validate unmarshal turns (some ex) req schemaJSON opts).err
        = some .didNotCallReturn ∧
    (Object.Generate T validate unmarshal turns (some ex) req schemaJSON opts).sentRequests.getD 1 reqO
        = { model := req.model,
            messages := prependSystem req.messages ++ [(turns 0).message]
              ++ results (ExtractToolCalls (turns 0).message),
            tools := req.tools ++
              [{ name := ReturnToolName,
                 description := "Return the final JSON object result.",
                 inputSchema := schemaJSON }] } := by
  unfold Object.Generate
  rw [if_neg hschema]
  simp only [hcol, Bool.false_eq_true, if_false, hstrict]
  have hMI : ∃ k, (if opts.maxIterations ≤ 0 then 5 else opts.maxIterations.toNat) = k + 1 := by
    split
    · exact ⟨4, rfl⟩
    · rename_i hmi
      exact ⟨opts.maxIterations.toNat - 1, by omega⟩
  obtain ⟨k, hk⟩ := hMI
  have hkN : normMaxRetries opts.maxRetries + 1 ≤ k := by
    have hb := hbudget
    unfold normMaxRetries normMaxIterations at hb
    unfold normMaxRetries
    omega
  rw [hk, objLoop.eq_def]
  simp only [h0]
  rw [if_neg h0c, if_neg (by rw [filterNonReturn_eq_self_of_no_return _ h0]; exact h0c)]
  rw [filterNonReturn_eq_self_of_no_return _ h0]
  simp only [hexec (ExtractToolCalls (turns 0).message)]
  have h := objLoop_mustCall_exhausts T validate unmarshal turns (some ex) req.model
    (req.tools ++ [{ name := ReturnToolName,
                     description := "Return the final JSON object result.",
                     inputSchema := schemaJSON }])
    schemaJSON (if opts.maxRetries < 0 then 0 else opts.maxRetries.toNat)
    (k + 1) 1 hlater k
    { messages := (prependSystem req.messages ++ [(turns 0).message])
        ++ results (ExtractToolCalls (turns 0).message),
      retryCount := 0, retryMessages := [],
      aggUsage := AddUsage Usage.zero (turns 0).usage,
      last := some (turns 0), callCount := 0 + 1,
      sentRequests := [] ++
        [{ model := req.model, messages := prependSystem req.messages ++ [],
           tools := req.tools ++
             [{ name := ReturnToolName,
                description := "Return the final JSON object result.",
                inputSchema := schemaJSON }] }] }
    (by show 1 ≤ 0 + 1; omega)
    (by show 0 ≤ if opts.maxRetries < 0 then 0 else opts.maxRetries.toNat; omega)
    (by
      show (if opts.maxRetries < 0 then 0 else opts.maxRetries.toNat) - 0 < k
      unfold normMaxRetries at hkN
      omega)
  obtain ⟨h1, h2, tail, h3⟩ := h
  refine ⟨?_, h2, ?_⟩
  · rw [h1]
    show 0 + 1 + ((if opts.maxRetries < 0 then 0 else opts.maxRetries.toNat) - 0) + 1
        = normMaxRetries opts.maxRetries + 2
    unfold normMaxRetries
    omega
  · rw [h3]
    simp

/-- C6 witness: the amended behavior at the concrete C6 scenario with
budget 1: three calls, failure with the did-not-call error, and a
second request carrying the tool result and no corrective message. -/
theorem object_enforcer_nonreturn_tool_calls_dispatch_witness :
    runC6.callCount = 1 + 2 ∧
    runC6.err = some .didNotCallReturn ∧
    runC6.sentRequests.getD 1 reqO
      = { model := "m",
          messages := prependSystem [] ++ [Text.callResp.message] ++ [Text.toolMsg],
          tools := [{ name := ReturnToolName,
                      description := "Return the final JSON object result.",
                      inputSchema := "S" }] } := by
  have h := object_enforcer_nonreturn_tool_calls_dispatch Nat alwaysBadValidator
    neverUnmarshal turnsC6 (fun _ => .ok [Text.toolMsg]) (fun _ => [Text.toolMsg])
    reqO "S" { strict := true, maxRetries := 1, maxIterations := 0 }
    (by decide) (by decide) rfl (by decide)
    (by show findReturnArgs Text.callResp.message = none; decide)
    (by show ExtractToolCalls Text.callResp.message ≠ []; decide)
    (fun n hn => by
      show ExtractToolCalls (turnsC6 n).message = []
      unfold turnsC6
      rw [if_neg (by omega)]
      decide)
    (fun cs => rfl)
  exact ⟨h.1, h.2.1, h.2.2⟩

/-- The fragment-accumulation state of the streaming enforcer
(`object.Stream`): the accumulated raw argument bytes (`s.rawArgs`)
and the best-effort decoded view (the stream's partial-view field,
returned by its accessor). `M` is the untyped key/value map type
(`map[string]any`). -/
structure StreamState (M : Type) where
  rawArgs : String
  partView : Option M
  deriving Repr, DecidableEq

/-- Mirrors `object.Stream.consumeToolDeltas`: per delta, skip
fragments of other named tools, skip empty argument fragments, append
the fragment to `rawArgs`, and — on every fragment — recompute the
decoded view when the accumulated bytes decode. `decodeMap` is the
black-box composition of `json.Valid` and `json.Unmarshal` into
`map[string]any` (`none` when either rejects); since the Lean function
is total, the view can never raise. Returns the state and the
`advanced` flag. -/
def consumeToolDeltas (M : Type) (decodeMap : String → Option M)
    (st : StreamState M) (deltas : List ToolCallDelta) : StreamState M × Bool :=
  deltas.foldl
    (fun (acc : StreamState M × Bool) d =>
      if d.name ≠ "" ∧ d.name ≠ ReturnToolName then acc
      else if d.argumentsDelta = "" then acc
      else
        let rawArgs := acc.1.rawArgs ++ d.argumentsDelta
        let partView :=
          match decodeMap rawArgs with
          | some m => some m
          | none => acc.1.partView
        (⟨rawArgs, partView⟩, true))
    (st, false)

/-- Concatenation of a list of strings, in order. -/
def concatAll (l : List String) : String :=
  l.foldr (fun a b => a ++ b) ""

/-- The fragments of a delta batch that the consumer accepts: those
addressed to the return tool (or unnamed) with non-empty arguments. -/
def relevantFragments (deltas : List ToolCallDelta) : List String :=
  deltas.filterMap fun d =>
    if d.name ≠ "" ∧ d.name ≠ ReturnToolName then none
    else if d.argumentsDelta = "" then none
    else some d.argumentsDelta

/-- One consume step appends exactly the accepted fragments. -/
theorem consumeToolDeltas_rawArgs (M : Type) (decodeMap : String → Option M) :
    ∀ (deltas : List ToolCallDelta) (st : StreamState M) (b : Bool),
      (deltas.foldl
        (fun (acc : StreamState M × Bool) d =>
          if d.name ≠ "" ∧ d.name ≠ ReturnToolName then acc
          else if d.argumentsDelta = "" then acc
          else
            let rawArgs := acc.1.rawArgs ++ d.argumentsDelta
            let partView :=
              match decodeMap rawArgs with
              | some m => some m
              | none => acc.1.partView
            (⟨rawArgs, partView⟩, true))
        (st, b)).1.rawArgs
      = st.rawArgs ++ concatAll (relevantFragments deltas) := by
  intro deltas
  induction deltas with
  | nil => intro st b; simp [relevantFragments, concatAll]
  | cons d t ih =>
    intro st b
    by_cases h1 : d.name ≠ "" ∧ d.name ≠ ReturnToolName
    · simp only [List.foldl_cons, if_pos h1]
      rw [ih st b]
      unfold relevantFragments
      rw [List.filterMap_cons, if_pos h1]
    · by_cases h2 : d.argumentsDelta = ""
      · simp only [List.foldl_cons, if_neg h1, if_pos h2]
        rw [ih st b]
        unfold relevantFragments
        rw [List.filterMap_cons, if_neg h1, if_pos h2]
      · simp only [List.foldl_cons, if_neg h1, if_neg h2]
        rw [ih]
        unfold relevantFragments concatAll
        rw [List.filterMap_cons, if_neg h1, if_neg h2]
        simp [String.append_assoc]

/-- Consuming preserves the view-recompute invariant: whenever the
accumulated bytes decode to a map, the partial view is exactly that
decoded map. -/
theorem consumeToolDeltas_view_invariant (M : Type) (decodeMap : String → Option M) :
    ∀ (deltas : List ToolCallDelta) (st : StreamState M) (b : Bool),
      (∀ m, decodeMap st.rawArgs = some m → st.partView = some m) →
      ∀ m', decodeMap ((deltas.foldl
          (fun (acc : StreamState M × Bool) d =>
            if d.name ≠ "" ∧ d.name ≠ ReturnToolName then acc
            else if d.argumentsDelta = "" then acc
            else
              let rawArgs := acc.1.rawArgs ++ d.argumentsDelta
              let partView :=
                match decodeMap rawArgs with
                | some m => some m
                | none => acc.1.partView
              (⟨rawArgs, partView⟩, true))
          (st, b)).1).rawArgs = some m' →
        ((deltas.foldl
          (fun (acc : StreamState M × Bool) d =>
            if d.name ≠ "" ∧ d.name ≠ ReturnToolName then acc
            else if d.argumentsDelta = "" then acc
            else
              let rawArgs := acc.1.rawArgs ++ d.argumentsDelta
              let partView :=
                match decodeMap rawArgs with
                | some m => some m
                | none => acc.1.partView
              (⟨rawArgs, partView⟩, true))
          (st, b)).1).partView = some m' := by
  intro deltas
  induction deltas with
  | nil => intro st b hinv m' hm'; exact hinv m' hm'
  | cons d t ih =>
    intro st b hinv m' hm'
    by_cases h1 : d.name ≠ "" ∧ d.name ≠ ReturnToolName
    · simp only [List.foldl_cons, if_pos h1] at hm' ⊢
      exact ih st b hinv m' hm'
    · by_cases h2 : d.argumentsDelta = ""
      · simp only [List.foldl_cons, if_neg h1, if_pos h2] at hm' ⊢
        exact ih st b hinv m' hm'
      · simp only [List.foldl_cons, if_neg h1, if_neg h2] at hm' ⊢
        refine ih _ true ?_ m' hm'
        intro m hm
        show (match decodeMap (st.rawArgs ++ d.argumentsDelta) with
              | some m => some m
              | none => st.partView) = some m
        rw [hm]

/-- C9: the streaming object enforcer's partial view: (totality) the
consume step is a total function, so exposing the view can never
raise; (concatenation) the accepted argument fragments are appended in
arrival order; (recompute) after consuming any batch of fragments, if
the accumulated fragment decodes as a syntactically valid JSON map,
the partial view is exactly that decoded map — recomputed on every
fragment, not only at completion; and (no view from invalid JSON) a
fragment whose accumulated bytes do not decode leaves the partial view
unchanged — in particular, starting from no view, invalid intermediate
JSON yields no partial view. -/
theorem stream_partial_view_law (M : Type) (decodeMap : String → Option M) :
    (∀ (st : StreamState M) (deltas : List ToolCallDelta),
      (consumeToolDeltas M decodeMap st deltas).1.rawArgs
        = st.rawArgs ++ concatAll (relevantFragments deltas)) ∧
    (∀ (st : StreamState M) (deltas : List ToolCallDelta),
      (∀ m, decodeMap st.rawArgs = some m → st.partView = some m) →
      ∀ m', decodeMap (consumeToolDeltas M decodeMap st deltas).1.rawArgs = some m' →
        (consumeToolDeltas M decodeMap st deltas).1.partView = some m') ∧
    (∀ (st : StreamState M) (d : ToolCallDelta),
      decodeMap (st.rawArgs ++ d.argumentsDelta) = none →
      (consumeToolDeltas M decodeMap st [d]).1.partView = st.partView) := by
  refine ⟨?_, ?_, ?_⟩
  · intro st deltas
    exact consumeToolDeltas_rawArgs M decodeMap deltas st false
  · intro st deltas hinv m' hm'
    exact consumeToolDeltas_view_invariant M decodeMap deltas st false hinv m' hm'
  · intro st d hnone
    unfold consumeToolDeltas
    simp only [List.foldl_cons, List.foldl_nil]
    by_cases h1 : d.name ≠ "" ∧ d.name ≠ ReturnToolName
    · rw [if_pos h1]
    · by_cases h2 : d.argumentsDelta = ""
      · rw [if_neg h1, if_pos h2]
      · rw [if_neg h1, if_neg h2]
        show (match decodeMap (st.rawArgs ++ d.argumentsDelta) with
              | some m => some m
              | none => st.partView) = st.partView
        rw [hnone]

/-- A decoder accepting only the complete object `"\x7b\x7d"`. -/
def toyDecode : String → Option Nat := fun s => if s = "\x7b\x7d" then some 7 else none

/-- C9 witness: the view law evaluated on the two-fragment split of a
tiny JSON object: after the first (invalid) fragment there is no view;
after the second the accumulated string decodes and the view appears. -/
theorem stream_partial_view_law_witness :
    (consumeToolDeltas Nat toyDecode ⟨"", none⟩
        [⟨0, "", ReturnToolName, "\x7b"⟩]).1.partView = none ∧
    (consumeToolDeltas Nat toyDecode ⟨"", none⟩
        [⟨0, "", ReturnToolName, "\x7b"⟩, ⟨0, "", "", "\x7d"⟩]).1.rawArgs = "\x7b\x7d" ∧
    (consumeToolDeltas Nat toyDecode ⟨"", none⟩
        [⟨0, "", ReturnToolName, "\x7b"⟩, ⟨0, "", "", "\x7d"⟩]).1.partView = some 7 := by
  have h := stream_partial_view_law Nat toyDecode
  refine ⟨?_, ?_, ?_⟩
  · have h3 := h.2.2 ⟨"", none⟩ ⟨0, "", ReturnToolName, "\x7b"⟩ (by decide)
    simpa using h3
  · have h1 := h.1 ⟨"", none⟩ [⟨0, "", ReturnToolName, "\x7b"⟩, ⟨0, "", "", "\x7d"⟩]
    simpa using h1
  · have h2 := h.2.1 ⟨"", none⟩ [⟨0, "", ReturnToolName, "\x7b"⟩, ⟨0, "", "", "\x7d"⟩]
      (by intro m hm; simp [toyDecode] at hm) 7
    apply h2
    have h1 := h.1 ⟨"", none⟩ [⟨0, "", ReturnToolName, "\x7b"⟩, ⟨0, "", "", "\x7d"⟩]
    rw [h1]
    decide

end Object

namespace OpenAI

/-- Mirrors `openai.toolCallAgg`: the per-position aggregation record
(id, name, and the `strings.Builder` holding the argument bytes). -/
structure toolCallAgg where
  id : String
  name : String
  args : String
  deriving Repr, DecidableEq

/-- One tool-call entry of a chunk's `delta.tool_calls` (index,
optional id, `function.name`, `function.arguments`). -/
structure ChunkToolCall where
  index : Nat
  id : String
  name : String
  arguments : String
  deriving Repr, DecidableEq

/-- One chunk choice: the optional content fragment, the tool-call
fragments, and the optional finish reason. -/
structure ChunkChoice where
  content : Option String
  toolCalls : List ChunkToolCall
  finishReason : Option String
  deriving Repr, DecidableEq

/-- A parsed `chatCompletionChunk` as far as `stream.Next` reads it. -/
structure Chunk where
  choices : List ChunkChoice
  usage : Option Usage
  deriving Repr, DecidableEq

/-- The decoder state of `openai.stream`: the text builder, the
position-keyed aggregation map (`toolCallsByIndex`, modelled as an
association list with unique keys), the latest finish reason and
usage. -/
structure StreamState where
  textParts : String
  toolCallsByIndex : List (Nat × toolCallAgg)
  finishReason : String
  usage : Usage
  deriving Repr, DecidableEq

/-- Go map read: `s.toolCallsByIndex[tc.Index]`. -/
def lookupAgg (m : List (Nat × toolCallAgg)) (i : Nat) : Option toolCallAgg :=
  (m.find? fun p => p.1 = i).map (·.2)

/-- Go map write: update the entry in place or insert it. -/
def setAgg (m : List (Nat × toolCallAgg)) (i : Nat) (a : toolCallAgg) :
    List (Nat × toolCallAgg) :=
  if m.any fun p => p.1 = i then
    m.map fun p => if p.1 = i then (i, a) else p
  else m ++ [(i, a)]

/-- Mirrors the per-entry body of the `for _, tc := range
c.Delta.ToolCalls` loop in `stream.Next` (provider.go lines 398–421):
fetch or create the position's aggregate, overwrite id/name when the
fragment carries them, and append a non-empty argument fragment to the
builder. (The `Delta` value surfaced to the engine caller is
observational and not part of the terminal-response state.) -/
def processToolCallDelta (m : List (Nat × toolCallAgg)) (tc : ChunkToolCall) :
    List (Nat × toolCallAgg) :=
  let agg := (lookupAgg m tc.index).getD ⟨"", "", ""⟩
  let agg := { agg with id := if tc.id ≠ "" then tc.id else agg.id }
  let agg := { agg with name := if tc.name ≠ "" then tc.name else agg.name }
  let agg := { agg with args := if tc.arguments ≠ "" then agg.args ++ tc.arguments else agg.args }
  setAgg m tc.index agg

/-- Mirrors one loop pass of `stream.Next` over a decoded chunk:
choices[0]'s content fragment extends the text builder, its tool-call
fragments feed the aggregation map, and a non-empty finish reason or a
usage payload overwrites the corresponding fields; a chunk without
choices is skipped. -/
def processChunk (st : StreamState) (chunk : Chunk) : StreamState :=
  match chunk.choices with
  | [] => st
  | c :: _ =>
    let st :=
      match c.content with
      | some t => { st with textParts := st.textParts ++ t }
      | none => st
    let st := { st with toolCallsByIndex := c.toolCalls.foldl processToolCallDelta st.toolCallsByIndex }
    let st :=
      match c.finishReason with
      | some fr => if fr ≠ "" then { st with finishReason := fr } else st
      | none => st
    match chunk.usage with
    | some u => { st with usage := u }
    | none => st

/-- Insert into an ascending list of indices (models `sort.Ints`). -/
def insertSorted (i : Nat) : List Nat → List Nat
  | [] => [i]
  | j :: t => if i ≤ j then i :: j :: t else j :: insertSorted i t

/-- Ascending sort of the aggregation map's keys. -/
def sortNats (l : List Nat) : List Nat :=
  l.foldr insertSorted []

/-- Mirrors `stream.finalize` (provider.go lines 503–542): the
terminal response's message holds the fully concatenated text (when
non-empty) followed by one completed `ToolCallPart` per position in
ascending index order, skipping aggregates that never received a
name. -/
def finalize (st : StreamState) : Response :=
  let textParts : List ContentPart :=
    if st.textParts ≠ "" then [.text st.textParts] else []
  let callParts : List ContentPart :=
    (sortNats (st.toolCallsByIndex.map (·.1))).filterMap fun i =>
      match lookupAgg st.toolCallsByIndex i with
      | some agg => if agg.name = "" then none else
          some (.toolCall { id := agg.id, name := agg.name, args := agg.args })
      | none => none
  { message := { role := .assistant, content := textParts ++ callParts,
                 name := "", toolCallID := "" },
    usage := st.usage, finishReason := st.finishReason }

/-- A full stream run: decode each chunk in order (up to the `[DONE]`
marker, which is the end of this list) and build the terminal
response. -/
def runStream (chunks : List Chunk) : Response :=
  finalize (chunks.foldl processChunk ⟨"", [], "", Usage.zero⟩)

/-- A chunk carrying a single tool-call fragment at position 0. -/
def argChunk (id name arg : String) : Chunk :=
  { choices := [{ content := none, toolCalls := [⟨0, id, name, arg⟩], finishReason := none }],
    usage := none }

/-- The canonical delivery of an arguments string split into
fragments: the first fragment carries the call's id and name, the
rest only bytes. -/
def fragmentChunks (id name : String) : List String → List Chunk
  | [] => []
  | f :: rest => argChunk id name f :: rest.map (argChunk "" "")

/-- Folding the tail fragments extends the single aggregate's argument
builder by their concatenation. -/
theorem foldl_tail_fragments (idv namev : String) :
    ∀ (rest : List String) (a : String),
      ((rest.map (argChunk "" "")).foldl processChunk
          ⟨"", [(0, ⟨idv, namev, a⟩)], "", Usage.zero⟩)
        = ⟨"", [(0, ⟨idv, namev, a ++ Object.concatAll rest⟩)], "", Usage.zero⟩ := by
  intro rest
  induction rest with
  | nil =>
    intro a
    simp [Object.concatAll]
  | cons g t ih =>
    intro a
    by_cases hg : g = ""
    · subst hg
      simp only [List.map_cons, List.foldl_cons]
      have hstep : processChunk ⟨"", [(0, ⟨idv, namev, a⟩)], "", Usage.zero⟩ (argChunk "" "" "")
          = ⟨"", [(0, ⟨idv, namev, a⟩)], "", Usage.zero⟩ := by
        simp [processChunk, argChunk, processToolCallDelta, lookupAgg, setAgg]
      rw [hstep, ih a]
      simp [Object.concatAll]
    · simp only [List.map_cons, List.foldl_cons]
      have hstep : processChunk ⟨"", [(0, ⟨idv, namev, a⟩)], "", Usage.zero⟩ (argChunk "" "" g)
          = ⟨"", [(0, ⟨idv, namev, a ++ g⟩)], "", Usage.zero⟩ := by
        simp [processChunk, argChunk, processToolCallDelta, lookupAgg, setAgg, hg]
      rw [hstep, ih (a ++ g)]
      have : a ++ g ++ Object.concatAll t = a ++ Object.concatAll (g :: t) := by
        show a ++ g ++ Object.concatAll t = a ++ (g ++ Object.concatAll t)
        rw [String.append_assoc]
      rw [this]

/-- C5: for every valid JSON arguments string split into arbitrary
non-empty substrings delivered as successive streaming fragments for
one tool-call position, the delta decoder concatenates the fragments
per position in arrival order, and the terminal response's tool-call
part carries exactly the original string as its arguments. (The
theorem holds for every string; JSON validity of `s` is not needed
for reconstruction.) -/
theorem tool_call_fragment_reconstruction (s id name : String) (frags : List String)
    (hne : frags ≠ []) (hfrag : ∀ f ∈ frags, f ≠ "") (hname : name ≠ "")
    (hjoin : Object.concatAll frags = s) :
    runStream (fragmentChunks id name frags)
      = { message := { role := .assistant,
                       content := [.toolCall { id := id, name := name, args := s }],
                       name := "", toolCallID := "" },
          usage := Usage.zero, finishReason := "" } := by
  obtain ⟨f, rest, rfl⟩ : ∃ f rest, frags = f :: rest := by
    cases frags with
    | nil => exact absurd rfl hne
    | cons f rest => exact ⟨f, rest, rfl⟩
  have hf : f ≠ "" := hfrag f (by simp)
  unfold runStream fragmentChunks
  simp only [List.foldl_cons]
  have hfirst : processChunk ⟨"", [], "", Usage.zero⟩ (argChunk id name f)
      = ⟨"", [(0, ⟨id, name, f⟩)], "", Usage.zero⟩ := by
    by_cases hid : id = ""
    · subst hid
      simp [processChunk, argChunk, processToolCallDelta, lookupAgg, setAgg, hf, hname]
    · simp [processChunk, argChunk, processToolCallDelta, lookupAgg, setAgg, hf, hname, hid]
  rw [hfirst, foldl_tail_fragments id name rest f]
  have hargs : f ++ Object.concatAll rest = s := hjoin
  rw [hargs]
  unfold finalize
  simp [sortNats, insertSorted, lookupAgg, hname]

/-- C5 witness: the two-fragment split of a small JSON object is
reconstructed exactly. -/
theorem tool_call_fragment_reconstruction_witness :
    runStream (fragmentChunks "c9" "add" ["\x7b\"a\":", "1\x7d"])
      = { message := { role := .assistant,
                       content := [.toolCall { id := "c9", name := "add",
                                               args := "\x7b\"a\":1\x7d" }],
                       name := "", toolCallID := "" },
          usage := Usage.zero, finishReason := "" } :=
  tool_call_fragment_reconstruction "\x7b\"a\":1\x7d" "c9" "add" ["\x7b\"a\":", "1\x7d"]
    (by decide) (by decide) (by decide) (by decide)

end OpenAI

namespace Dispatch

/-- Mirrors `ai.Schema`: the raw JSON-Schema bytes ("" for none). -/
structure Schema where
  json : String
  deriving Repr, DecidableEq

/-- Mirrors `ai.Tool`. The handler takes the raw argument bytes and
returns the marshalled result value (`json.Marshal` of the Go
handler's `any` result is a black box; the claims only inspect the
result message's role and toolCallId) or an error. The
cancellation-aware context and the progress-reporting capability
threaded through `ToolExecutionMeta` are observational and carry no
state modelled here. -/
structure Tool where
  name : String
  description : String
  inputSchema : Schema
  handler : Option (String → Except String String)

/-- The dispatcher's error taxonomy, in source order:
`fmt.Errorf("model requested tool calls but no tools were provided")`,
`fmt.Errorf("tool call missing id")`, `*NoSuchToolError`,
`fmt.Errorf("tool %q missing handler")`, `*InvalidToolInputError`
(with its cause), `*ToolExecutionError` (with its cause). -/
inductive DispatchError where
  | noToolsProvided
  | missingCallID
  | noSuchTool (toolName : String)
  | missingHandler (toolName : String)
  | invalidToolInput (toolName toolCallID cause : String)
  | toolExecutionError (toolName toolCallID cause : String)
  deriving Repr, DecidableEq

/-- Mirrors `ai.findTool`: first declared tool with the given name. -/
def findTool (tools : List Tool) (name : String) : Option Tool :=
  tools.find? fun t => t.name = name

/-- Mirrors `ai.validateJSONAgainstSchema` (schema_validation.go):
empty schema accepts everything, empty JSON is rejected, and otherwise
the black-box compiled-schema validator `extValidate` decides
(`some e` = failure). -/
def validateJSONAgainstSchema (extValidate : String → String → Option String)
    (schema : Schema) (raw : String) : Option String :=
  if schema.json = "" then none
  else if raw = "" then some "empty json"
  else extValidate schema.json raw

/-- Mirrors `ai.toolResultProvider`: the tool-role result message for
one call. -/
def toolResultProvider (toolCallID toolName : String) (value : String) : Message :=
  { role := .tool, toolCallID := toolCallID,
    content := [.text value], name := toolName }

/-- The `for _, call := range calls` loop of
`ai.executeToolCallsProviderWithOptions` (tool_calls.go lines 39–89),
dispatching calls in the order received and aborting on the first
failure. -/
def execLoop (extValidate : String → String → Option String) (tools : List Tool) :
    List ToolCallPart → Except DispatchError (List Message)
  | [] => .ok []
  | call :: rest =>
    if call.id = "" then .error .missingCallID
    else
      match findTool tools call.name with
      | none => .error (.noSuchTool call.name)
      | some t =>
        match t.handler with
        | none => .error (.missingHandler call.name)
        | some h =>
          let verr :=
            if t.inputSchema.json ≠ "" then
              validateJSONAgainstSchema extValidate t.inputSchema call.args
            else none
          match verr with
          | some e => .error (.invalidToolInput t.name call.id e)
          | none =>
            match h call.args with
            | .error e => .error (.toolExecutionError t.name call.id e)
            | .ok val =>
              (execLoop extValidate tools rest).map
                (toolResultProvider call.id t.name val :: ·)

/-- Mirrors `ai.executeToolCallsProviderWithOptions`: an empty batch
is a no-op, a non-empty batch against an empty declared tool set is an
error before any call is attempted, and otherwise the calls are
dispatched in order. -/
def executeToolCallsProviderWithOptions
    (extValidate : String → String → Option String)
    (tools : List Tool) (calls : List ToolCallPart) :
    Except DispatchError (List Message) :=
  if calls = [] then .ok []
  else if tools.isEmpty then .error .noToolsProvided
  else execLoop extValidate tools calls

/-- The loop distributes over list append once a leading segment
succeeds. -/
theorem execLoop_append (extValidate : String → String → Option String)
    (tools : List Tool) :
    ∀ (pre rest : List ToolCallPart) (rs : List Message),
      execLoop extValidate tools pre = .ok rs →
      execLoop extValidate tools (pre ++ rest)
        = (execLoop extValidate tools rest).map (rs ++ ·) := by
  intro pre
  induction pre with
  | nil =>
    intro rest rs h
    injection h with h
    subst h
    cases hrest : execLoop extValidate tools rest with
    | error e => simp [hrest, Except.map]
    | ok ms => simp [hrest, Except.map]
  | cons c t ih =>
    intro rest rs h
    rw [execLoop.eq_def] at h
    simp only at h
    split at h
    case _ hid => exact absurd h (by simp)
    case _ hid =>
      split at h
      case _ hft => exact absurd h (by simp)
      case _ tl hft =>
        split at h
        case _ hh => exact absurd h (by simp)
        case _ hd hh =>
          split at h
          case _ e hverr => exact absurd h (by simp)
          case _ hverr =>
            split at h
            case _ e hhr => exact absurd h (by simp)
            case _ val hhr =>
              cases hrec : execLoop extValidate tools t with
              | error e =>
                rw [hrec] at h
                exact absurd h (by simp [Except.map])
              | ok ms =>
                rw [hrec] at h
                simp only [Except.map] at h
                injection h with h
                subst h
                rw [List.cons_append, execLoop.eq_def]
                simp only
                rw [if_neg hid, hft]
                simp only
                rw [hh]
                simp only
                rw [hverr]
                simp only
                rw [hhr]
                simp only
                rw [ih rest ms hrec]
                cases hrest : execLoop extValidate tools rest with
                | error e => simp [hrest, Except.map]
                | ok ms2 => simp [hrest, Except.map]

/-- A successful loop run yields one tool-role message per call with
matching toolCallId, in order. -/
theorem execLoop_ok_shape (extValidate : String → String → Option String)
    (tools : List Tool) :
    ∀ (calls : List ToolCallPart) (msgs : List Message),
      execLoop extValidate tools calls = .ok msgs →
      msgs.map (fun m => m.toolCallID) = calls.map (fun c => c.id) ∧
      ∀ m ∈ msgs, m.role = .tool := by
  intro calls
  induction calls with
  | nil =>
    intro msgs h
    injection h with h
    subst h
    exact ⟨rfl, by simp⟩
  | cons c t ih =>
    intro msgs h
    rw [execLoop.eq_def] at h
    simp only at h
    split at h
    case _ hid => exact absurd h (by simp)
    case _ hid =>
      split at h
      case _ hft => exact absurd h (by simp)
      case _ tl hft =>
        split at h
        case _ hh => exact absurd h (by simp)
        case _ hd hh =>
          split at h
          case _ e hverr => exact absurd h (by simp)
          case _ hverr =>
            split at h
            case _ e hhr => exact absurd h (by simp)
            case _ val hhr =>
              cases hrec : execLoop extValidate tools t with
              | error e =>
                rw [hrec] at h
                exact absurd h (by simp [Except.map])
              | ok ms =>
                rw [hrec] at h
                simp only [Except.map] at h
                injection h with h
                subst h
                obtain ⟨h1, h2⟩ := ih ms hrec
                constructor
                · simp [toolResultProvider, h1]
                · intro m hm
                  rcases List.mem_cons.mp hm with hm | hm
                  · subst hm; rfl
                  · exact h2 m hm

/-- C4: for every batch of tool calls dispatched in the order
received: a non-empty batch with an empty declared tool set is an
error before any call is attempted; once the calls before it succeed,
a call naming an undeclared tool aborts the whole dispatch with a
NoSuchTool error, a call whose arguments fail the tool's declared
input schema aborts with an InvalidToolInput error, and a handler
error aborts with a ToolExecutionFailure error carrying the cause; and
every successful dispatch yields one tool-role result message per
call whose toolCallId equals the call's id, in order. -/
theorem tool_dispatch_order_and_errors :
    (∀ (ev : String → String → Option String) (tools : List Tool)
        (calls : List ToolCallPart), calls ≠ [] → tools = [] →
      executeToolCallsProviderWithOptions ev tools calls = .error .noToolsProvided) ∧
    (∀ (ev : String → String → Option String) (tools : List Tool)
        (pre : List ToolCallPart) (c : ToolCallPart) (post : List ToolCallPart)
        (rs : List Message), tools ≠ [] →
      execLoop ev tools pre = .ok rs → c.id ≠ "" →
      findTool tools c.name = none →
      executeToolCallsProviderWithOptions ev tools (pre ++ c :: post)
        = .error (.noSuchTool c.name)) ∧
    (∀ (ev : String → String → Option String) (tools : List Tool)
        (pre : List ToolCallPart) (c : ToolCallPart) (post : List ToolCallPart)
        (rs : List Message) (tl : Tool) (hd : String → Except String String)
        (verr : String), tools ≠ [] →
      execLoop ev tools pre = .ok rs → c.id ≠ "" →
      findTool tools c.name = some tl → tl.handler = some hd →
      tl.inputSchema.json ≠ "" →
      validateJSONAgainstSchema ev tl.inputSchema c.args = some verr →
      executeToolCallsProviderWithOptions ev tools (pre ++ c :: post)
        = .error (.invalidToolInput tl.name c.id verr)) ∧
    (∀ (ev : String → String → Option String) (tools : List Tool)
        (pre : List ToolCallPart) (c : ToolCallPart) (post : List ToolCallPart)
        (rs : List Message) (tl : Tool) (hd : String → Except String String)
        (herr : String), tools ≠ [] →
      execLoop ev tools pre = .ok rs → c.id ≠ "" →
      findTool tools c.name = some tl → tl.handler = some hd →
      (if tl.inputSchema.json ≠ "" then
          validateJSONAgainstSchema ev tl.inputSchema c.args
        else none) = none →
      hd c.args = .error herr →
      executeToolCallsProviderWithOptions ev tools (pre ++ c :: post)
        = .error (.toolExecutionError tl.name c.id herr)) ∧
    (∀ (ev : String → String → Option String) (tools : List Tool)
        (calls : List ToolCallPart) (msgs : List Message),
      executeToolCallsProviderWithOptions ev tools calls = .ok msgs →
      msgs.map (fun m => m.toolCallID) = calls.map (fun c => c.id) ∧
      ∀ m ∈ msgs, m.role = .tool) := by
  refine ⟨?_, ?_, ?_, ?_, ?_⟩
  · intro ev tools calls hcalls htools
    subst htools
    unfold executeToolCallsProviderWithOptions
    rw [if_neg hcalls]
    rfl
  · intro ev tools pre c post rs htools hpre hid hft
    unfold executeToolCallsProviderWithOptions
    rw [if_neg (by simp), if_neg (by simpa using htools)]
    rw [execLoop_append ev tools pre (c :: post) rs hpre]
    rw [execLoop.eq_def]
    simp only
    rw [if_neg hid, hft]
    rfl
  · intro ev tools pre c post rs tl hd verr htools hpre hid hft hh hsch hval
    unfold executeToolCallsProviderWithOptions
    rw [if_neg (by simp), if_neg (by simpa using htools)]
    rw [execLoop_append ev tools pre (c :: post) rs hpre]
    rw [execLoop.eq_def]
    simp only
    rw [if_neg hid, hft]
    simp only
    rw [hh]
    simp only
    rw [if_pos hsch, hval]
    rfl
  · intro ev tools pre c post rs tl hd herr htools hpre hid hft hh hvnone hherr
    unfold executeToolCallsProviderWithOptions
    rw [if_neg (by simp), if_neg (by simpa using htools)]
    rw [execLoop_append ev tools pre (c :: post) rs hpre]
    rw [execLoop.eq_def]
    simp only
    rw [if_neg hid, hft]
    simp only
    rw [hh]
    simp only
    rw [hvnone]
    simp only
    rw [hherr]
    rfl
  · intro ev tools calls msgs h
    unfold executeToolCallsProviderWithOptions at h
    by_cases hc : calls = []
    · rw [if_pos hc] at h
      injection h with h
      subst h
      subst hc
      exact ⟨rfl, by simp⟩
    · rw [if_neg hc] at h
      by_cases ht : tools.isEmpty
      · rw [if_pos ht] at h
        exact absurd h (by simp)
      · rw [if_neg ht] at h
        exact execLoop_ok_shape ev tools calls msgs h

/-- The black-box validator of the witness scenario: rejects the
argument bytes `"inv"`. -/
def ev4 : String → String → Option String :=
  fun _ raw => if raw = "inv" then some "type mismatch" else none

/-- The handler of the witness tool: fails on the argument bytes
`"bad"`. -/
def addHandler : String → Except String String :=
  fun args => if args = "bad" then .error "boom" else .ok "42"

/-- The witness tool. -/
def addTool : Tool :=
  { name := "add", description := "", inputSchema := ⟨"SCH"⟩, handler := some addHandler }

/-- The witness declared tool set. -/
def tools4 : List Tool := [addTool]

/-- C4 witness: the dispatch law evaluated at concrete batches — the
empty-tool-set error, the abort on an unknown name after a successful
call, the abort on schema-invalid input, the abort on a failing
handler, and the id-preserving success case. -/
theorem tool_dispatch_order_and_errors_witness :
    executeToolCallsProviderWithOptions ev4 [] [⟨"c1", "add", "ok"⟩]
      = .error .noToolsProvided ∧
    executeToolCallsProviderWithOptions ev4 tools4
        [⟨"c1", "add", "ok"⟩, ⟨"c2", "mul", "x"⟩]
      = .error (.noSuchTool "mul") ∧
    executeToolCallsProviderWithOptions ev4 tools4
        [⟨"c1", "add", "ok"⟩, ⟨"c3", "add", "inv"⟩]
      = .error (.invalidToolInput "add" "c3" "type mismatch") ∧
    executeToolCallsProviderWithOptions ev4 tools4
        [⟨"c1", "add", "ok"⟩, ⟨"c4", "add", "bad"⟩]
      = .error (.toolExecutionError "add" "c4" "boom") ∧
    ([toolResultProvider "c1" "add" "42"].map (fun m => m.toolCallID)
        = [(⟨"c1", "add", "ok"⟩ : ToolCallPart)].map (fun c => c.id) ∧
      ∀ m ∈ [toolResultProvider "c1" "add" "42"], m.role = .tool) := by
  obtain ⟨h1, h2, h3, h4, h5⟩ := tool_dispatch_order_and_errors
  refine ⟨h1 ev4 [] _ (by simp) rfl, ?_, ?_, ?_, ?_⟩
  · exact h2 ev4 tools4 [⟨"c1", "add", "ok"⟩] ⟨"c2", "mul", "x"⟩ []
      [toolResultProvider "c1" "add" "42"]
      (by simp [tools4]) (by decide) (by decide) rfl
  · exact h3 ev4 tools4 [⟨"c1", "add", "ok"⟩] ⟨"c3", "add", "inv"⟩ []
      [toolResultProvider "c1" "add" "42"] addTool addHandler "type mismatch"
      (by simp [tools4]) (by decide) (by decide) rfl rfl (by decide) (by decide)
  · exact h4 ev4 tools4 [⟨"c1", "add", "ok"⟩] ⟨"c4", "add", "bad"⟩ []
      [toolResultProvider "c1" "add" "42"] addTool addHandler "boom"
      (by simp [tools4]) (by decide) (by decide) rfl rfl (by decide) (by decide)
  · exact h5 ev4 tools4 [⟨"c1", "add", "ok"⟩] [toolResultProvider "c1" "add" "42"]
      (by decide)

end Dispatch

namespace Mem

/-!
A heap model of Go slices, used to settle the frame claim: the engines
never write to the arrays underlying the caller's request slices. A
slice is an array id plus a length (the engines only ever slice from
offset 0); an array carries its element data and its capacity. Go's
`append` writes in place when capacity suffices and reallocates
otherwise; since the runtime's capacity growth policy is unspecified,
every allocation takes its extra capacity from an arbitrary oracle
`slack`, and the frame theorems hold for every oracle — covering every
possible in-place/reallocate behavior.
-/

/-- A Go slice value: array id and length (offset 0). -/
structure GoSlice where
  arr : Nat
  len : Nat
  deriving Repr, DecidableEq

/-- A Go backing array: element data and capacity. -/
structure GoArray (α : Type) where
  data : List α
  cap : Nat
  deriving Repr, DecidableEq

/-- The array heap: id = position. Allocation appends. -/
abbrev Heap (α : Type) : Type := List (GoArray α)

/-- The elements a slice denotes. -/
def readSlice {α : Type} (h : Heap α) (s : GoSlice) : List α :=
  match List.get? h s.arr with
  | some a => a.data.take s.len
  | none => []

/-- `append([]T(nil), xs...)`: allocate a fresh array holding `xs`,
with oracle-chosen extra capacity. -/
def allocSlice {α : Type} (slack : Nat → Nat) (h : Heap α) (xs : List α) :
    Heap α × GoSlice :=
  (h ++ [⟨xs, xs.length + slack (List.length h)⟩], ⟨List.length h, xs.length⟩)

/-- `append(s, vs...)` on a non-nil slice: write in place past `len`
when the capacity allows (overwriting any bytes there), else copy into
a fresh array. -/
def goAppend {α : Type} (slack : Nat → Nat) (h : Heap α) (s : GoSlice) (vs : List α) :
    Heap α × GoSlice :=
  match List.get? h s.arr with
  | some a =>
    if s.len + vs.length ≤ a.cap then
      (List.set h s.arr ⟨a.data.take s.len ++ vs ++ a.data.drop (s.len + vs.length), a.cap⟩,
       ⟨s.arr, s.len + vs.length⟩)
    else allocSlice slack h (a.data.take s.len ++ vs)
  | none => allocSlice slack h vs

/-- `h'` extends `h` without touching the first `base` arrays. -/
def HeapExtends {α : Type} (base : Nat) (h h' : Heap α) : Prop :=
  List.length h ≤ List.length h' ∧
  ∀ i, i < base → List.get? h' i = List.get? h i

theorem heapExtends_refl {α : Type} (base : Nat) (h : Heap α) : HeapExtends base h h :=
  ⟨le_refl _, fun _ _ => rfl⟩

theorem heapExtends_trans {α : Type} (base : Nat) (h1 h2 h3 : Heap α)
    (a : HeapExtends base h1 h2) (b : HeapExtends base h2 h3) :
    HeapExtends base h1 h3 :=
  ⟨le_trans a.1 b.1, fun i hi => (b.2 i hi).trans (a.2 i hi)⟩

/-- Allocation leaves every existing array in place. -/
theorem allocSlice_extends {α : Type} (slack : Nat → Nat) (h : Heap α) (xs : List α)
    (base : Nat) (hb : base ≤ List.length h) :
    HeapExtends base h (allocSlice slack h xs).1 := by
  refine ⟨by simp [allocSlice], fun i hi => ?_⟩
  simp only [allocSlice]
  rw [List.get?_append (by omega)]

/-- Allocation returns a slice rooted at or past any base within the
heap. -/
theorem allocSlice_arr {α : Type} (slack : Nat → Nat) (h : Heap α) (xs : List α)
    (base : Nat) (hb : base ≤ List.length h) :
    base ≤ (allocSlice slack h xs).2.arr := by
  simp only [allocSlice]
  omega

/-- Allocation grows the heap by one. -/
theorem allocSlice_len {α : Type} (slack : Nat → Nat) (h : Heap α) (xs : List α) :
    List.length (allocSlice slack h xs).1 = List.length h + 1 := by
  simp [allocSlice]

/-- Appending through a slice rooted at or past `base` leaves the
first `base` arrays untouched. -/
theorem goAppend_extends {α : Type} (slack : Nat → Nat) (h : Heap α) (s : GoSlice)
    (vs : List α) (base : Nat) (hb : base ≤ List.length h) (hs : base ≤ s.arr) :
    HeapExtends base h (goAppend slack h s vs).1 := by
  unfold goAppend
  cases hget : List.get? h s.arr with
  | none => exact allocSlice_extends slack h vs base hb
  | some a =>
    simp only
    split
    · refine ⟨by simp, fun i hi => ?_⟩
      rw [List.get?_set_ne]
      omega
    · exact allocSlice_extends slack h _ base hb

/-- The appended-to slice stays rooted at or past `base`. -/
theorem goAppend_arr {α : Type} (slack : Nat → Nat) (h : Heap α) (s : GoSlice)
    (vs : List α) (base : Nat) (hb : base ≤ List.length h) (hs : base ≤ s.arr) :
    base ≤ (goAppend slack h s vs).2.arr := by
  unfold goAppend
  cases hget : List.get? h s.arr with
  | none => exact allocSlice_arr slack h vs base hb
  | some a =>
    simp only
    split
    · exact hs
    · exact allocSlice_arr slack h _ base hb

/-- Appending never shrinks the heap. -/
theorem goAppend_len {α : Type} (slack : Nat → Nat) (h : Heap α) (s : GoSlice)
    (vs : List α) : List.length h ≤ List.length (goAppend slack h s vs).1 := by
  unfold goAppend
  cases hget : List.get? h s.arr with
  | none => simp [allocSlice_len]
  | some a =>
    simp only
    split
    · simp
    · simp [allocSlice_len]

/-- The final heaps of a run, the logged provider-call slices, and the
run's control-flow outcome. -/
structure HeapRunResult where
  hm : Heap Message
  ht : Heap ToolDefinition
  log : List (GoSlice × GoSlice)
  outcome : Except Text.GenError Unit

/-- A caller request whose message and tool slices live in the heaps. -/
structure RequestH where
  model : String
  messagesS : GoSlice
  toolsS : GoSlice

/-- The per-iteration head of `text.Generate` at the slice level: the
fresh copies `stepMessages`/`stepTools` of the conversation and tool
slices, and the `PrepareStep` block (which may rebase the conversation
with two fresh copies of `res.Messages` and pick a model override and
active-tool subset). -/
structure PrepOut where
  hmCopied : Heap Message
  ht : Heap ToolDefinition
  stepToolsS : GoSlice
  res : Except Text.GenError (Heap Message × String × GoSlice × GoSlice × List String)

/-- Mirrors `text.Generate` lines 406–433 (this step's slice copies
plus the `PrepareStep` hook) with allocations explicit. -/
def prepareH (slackM slackT : Nat → Nat)
    (prepareStep : Option (Text.PrepareStepEvent → Except Text.GenError Text.PrepareStepResult))
    (hm : Heap Message) (ht : Heap ToolDefinition) (toolDefsS : GoSlice)
    (model : String) (messagesS : GoSlice) (steps : List Text.Step)
    (stepNumber : Nat) : PrepOut :=
  let pm := allocSlice slackM hm (readSlice hm messagesS)
  let pt := allocSlice slackT ht (readSlice ht toolDefsS)
  { hmCopied := pm.1, ht := pt.1, stepToolsS := pt.2,
    res :=
      match prepareStep with
      | none => .ok (pm.1, model, messagesS, pm.2, [])
      | some ps =>
        match ps { stepNumber := stepNumber, steps := steps,
                   request := { model := model, messages := [], tools := [] },
                   messages := readSlice pm.1 pm.2,
                   tools := readSlice pt.1 pt.2 } with
        | .error e => .error e
        | .ok res =>
          let model := if res.model ≠ "" then res.model else model
          match res.messages with
          | some ms =>
            let a1 := allocSlice slackM pm.1 ms
            let a2 := allocSlice slackM a1.1 ms
            .ok (a2.1, model, a2.2, a1.2, res.activeTools.getD [])
          | none => .ok (pm.1, model, messagesS, pm.2, res.activeTools.getD []) }

/-- `text.Generate`'s loop with its slice operations explicit
(slice-level re-embedding of the same source lines as `Text.genLoop`,
for the frame claim): each iteration copies the conversation and tool
list into fresh arrays (`append([]T(nil), ...)`), lets `PrepareStep`
rebase them, builds the provider request from fresh copies of this
step's message and (possibly filtered) tool slices — logged per call —
and appends the response message and tool results through the engine's
own conversation slice. `steps`, the step records, tool results and
hook events are plain values: in the source they are built exclusively
from freshly allocated copies and provider/executor return values,
never by slicing the caller's arrays, so no write can reach the
request through them. -/
def genLoopH (slackM slackT : Nat → Nat) (turns : Nat → Response)
    (exec : Option Text.Executor)
    (stopWhen : Option (Text.StopWhenEvent → Bool))
    (prepareStep : Option (Text.PrepareStepEvent → Except Text.GenError Text.PrepareStepResult))
    (maxIterations : Nat) (toolDefsS : GoSlice) :
    Nat → Heap Message → Heap ToolDefinition → String → GoSlice →
    List Text.Step → Nat → List (GoSlice × GoSlice) → HeapRunResult
  | 0, hm, ht, _, _, _, _, log =>
    ⟨hm, ht, log, .error (.capExceeded maxIterations)⟩
  | remaining + 1, hm, ht, model, messagesS, steps, stepNumber, log =>
    let po := prepareH slackM slackT prepareStep hm ht toolDefsS model messagesS
      steps stepNumber
    match po.res with
    | .error e => ⟨po.hmCopied, po.ht, log, .error e⟩
    | .ok (hm2, model, messagesS, stepMessagesS, activeTools) =>
      let ftp :=
        if activeTools ≠ [] then
          allocSlice slackT po.ht
            ((readSlice po.ht po.stepToolsS).filter fun td => activeTools.contains td.name)
        else (po.ht, po.stepToolsS)
      let cm := allocSlice slackM hm2 (readSlice hm2 stepMessagesS)
      let ct := allocSlice slackT ftp.1 (readSlice ftp.1 ftp.2)
      let log := log ++ [(cm.2, ct.2)]
      let resp := turns stepNumber
      let am := goAppend slackM cm.1 messagesS [resp.message]
      let calls := ExtractToolCalls resp.message
      let step : Text.Step :=
        { stepNumber := stepNumber, response := resp, toolCalls := calls,
          toolResults := [], activeTools := activeTools }
      if calls = [] then ⟨am.1, ct.1, log, .ok ()⟩
      else
        match exec with
        | none => ⟨am.1, ct.1, log, .error .noExecutor⟩
        | some ex =>
          match ex calls with
          | .error e => ⟨am.1, ct.1, log, .error e⟩
          | .ok results =>
            let am2 := goAppend slackM am.1 am.2 results
            let steps := steps ++ [{ step with toolResults := results }]
            let stop :=
              match stopWhen with
              | some f => f { stepNumber := stepNumber, steps := steps,
                              messages := readSlice am2.1 am2.2 }
              | none => false
            if stop then ⟨am2.1, ct.1, log, .ok ()⟩
            else
              genLoopH slackM slackT turns exec stopWhen prepareStep maxIterations
                toolDefsS remaining am2.1 ct.1 model am2.2 steps (stepNumber + 1) log

/-- `text.Generate` at the slice level: copy the request's message and
tool slices into fresh engine-owned arrays on entry, then run the
loop. -/
def GenerateH (slackM slackT : Nat → Nat) (turns : Nat → Response)
    (exec : Option Text.Executor) (opts : Text.Options)
    (hm0 : Heap Message) (ht0 : Heap ToolDefinition) (req : RequestH) : HeapRunResult :=
  let maxIterations := Text.normalizeMaxIterations opts.maxIterations
  let pm := allocSlice slackM hm0 (readSlice hm0 req.messagesS)
  let pt := allocSlice slackT ht0 (readSlice ht0 req.toolsS)
  genLoopH slackM slackT turns exec opts.stopWhen opts.prepareStep maxIterations
    pt.2 maxIterations pm.1 pt.1 req.model pm.2 [] 0 []

/-- The per-iteration head only allocates: existing arrays are
untouched, and every slice it hands back is engine-owned (rooted at or
past any base inside the incoming heaps). -/
theorem prepareH_frame (slackM slackT : Nat → Nat)
    (prepareStep : Option (Text.PrepareStepEvent → Except Text.GenError Text.PrepareStepResult))
    (hm : Heap Message) (ht : Heap ToolDefinition) (toolDefsS : GoSlice)
    (model : String) (messagesS : GoSlice) (steps : List Text.Step) (stepNumber : Nat)
    (bM bT : Nat) (hbm : bM ≤ List.length hm) (hbt : bT ≤ List.length ht)
    (hms : bM ≤ messagesS.arr) :
    HeapExtends bM hm (prepareH slackM slackT prepareStep hm ht toolDefsS model
      messagesS steps stepNumber).hmCopied ∧
    HeapExtends bT ht (prepareH slackM slackT prepareStep hm ht toolDefsS model
      messagesS steps stepNumber).ht ∧
    bT ≤ (prepareH slackM slackT prepareStep hm ht toolDefsS model
      messagesS steps stepNumber).stepToolsS.arr ∧
    (∀ hm2 model2 msS smS atl,
      (prepareH slackM slackT prepareStep hm ht toolDefsS model
        messagesS steps stepNumber).res = .ok (hm2, model2, msS, smS, atl) →
      HeapExtends bM hm hm2 ∧ bM ≤ msS.arr ∧ bM ≤ smS.arr) := by
  unfold prepareH
  simp only
  refine ⟨allocSlice_extends slackM hm _ bM hbm,
          allocSlice_extends slackT ht _ bT hbt,
          allocSlice_arr slackT ht _ bT hbt, ?_⟩
  intro hm2 model2 msS smS atl h
  rcases prepareStep with _ | ps
  · simp only [Except.ok.injEq, Prod.mk.injEq] at h
    obtain ⟨h1, _, h3, h4, _⟩ := h
    subst h1; subst h3; subst h4
    exact ⟨allocSlice_extends slackM hm _ bM hbm, hms,
           allocSlice_arr slackM hm _ bM hbm⟩
  · simp only at h
    rcases hev : ps { stepNumber := stepNumber, steps := steps,
                      request := { model := model, messages := [], tools := [] },
                      messages := readSlice (allocSlice slackM hm (readSlice hm messagesS)).1
                        (allocSlice slackM hm (readSlice hm messagesS)).2,
                      tools := readSlice (allocSlice slackT ht (readSlice ht toolDefsS)).1
                        (allocSlice slackT ht (readSlice ht toolDefsS)).2 } with e | res
    · rw [hev] at h
      exact absurd h (by simp)
    · rw [hev] at h
      simp only at h
      rcases hrm : res.messages with _ | ms
      · rw [hrm] at h
        simp only [Except.ok.injEq, Prod.mk.injEq] at h
        obtain ⟨h1, _, h3, h4, _⟩ := h
        subst h1; subst h3; subst h4
        exact ⟨allocSlice_extends slackM hm _ bM hbm, hms,
               allocSlice_arr slackM hm _ bM hbm⟩
      · rw [hrm] at h
        simp only [Except.ok.injEq, Prod.mk.injEq] at h
        obtain ⟨h1, _, h3, h4, _⟩ := h
        subst h1; subst h3; subst h4
        have e1 := allocSlice_extends slackM hm (readSlice hm messagesS) bM hbm
        have e2 := allocSlice_extends slackM
          (allocSlice slackM hm (readSlice hm messagesS)).1 ms bM (le_trans hbm e1.1)
        have e3 := allocSlice_extends slackM
          (allocSlice slackM (allocSlice slackM hm (readSlice hm messagesS)).1 ms).1 ms bM
          (le_trans (le_trans hbm e1.1) e2.1)
        refine ⟨heapExtends_trans bM _ _ _ (heapExtends_trans bM _ _ _ e1 e2) e3, ?_, ?_⟩
        · exact allocSlice_arr slackM _ ms bM (le_trans (le_trans hbm e1.1) e2.1)
        · exact allocSlice_arr slackM _ ms bM (le_trans hbm e1.1)

/-- The loop never writes below the bases: every array below `bM`/`bT`
in the incoming heaps survives unchanged, and every provider call is
handed slices rooted in engine-allocated arrays. -/
theorem genLoopH_frame (slackM slackT : Nat → Nat) (turns : Nat → Response)
    (exec : Option Text.Executor)
    (stopWhen : Option (Text.StopWhenEvent → Bool))
    (prepareStep : Option (Text.PrepareStepEvent → Except Text.GenError Text.PrepareStepResult))
    (maxIterations : Nat) (toolDefsS : GoSlice) (bM bT : Nat) :
    ∀ (r : Nat) (hm : Heap Message) (ht : Heap ToolDefinition) (model : String)
      (messagesS : GoSlice) (steps : List Text.Step) (stepNumber : Nat)
      (log : List (GoSlice × GoSlice)),
      bM ≤ List.length hm → bT ≤ List.length ht → bM ≤ messagesS.arr →
      HeapExtends bM hm (genLoopH slackM slackT turns exec stopWhen prepareStep
        maxIterations toolDefsS r hm ht model messagesS steps stepNumber log).hm ∧
      HeapExtends bT ht (genLoopH slackM slackT turns exec stopWhen prepareStep
        maxIterations toolDefsS r hm ht model messagesS steps stepNumber log).ht ∧
      ∀ p ∈ (genLoopH slackM slackT turns exec stopWhen prepareStep
        maxIterations toolDefsS r hm ht model messagesS steps stepNumber log).log,
        p ∈ log ∨ (bM ≤ p.1.arr ∧ bT ≤ p.2.arr) := by
  intro r
  induction r with
  | zero =>
    intro hm ht model messagesS steps stepNumber log hbm hbt hms
    exact ⟨heapExtends_refl bM hm, heapExtends_refl bT ht, fun p hp => Or.inl hp⟩
  | succ r ih =>
    intro hm ht model messagesS steps stepNumber log hbm hbt hms
    rw [genLoopH.eq_def]
    simp only
    set PO := prepareH slackM slackT prepareStep hm ht toolDefsS model messagesS
      steps stepNumber with hPO
    obtain ⟨hpm, hpt, hpts, hpok⟩ := prepareH_frame slackM slackT prepareStep hm ht
      toolDefsS model messagesS steps stepNumber bM bT hbm hbt hms
    rcases hres : PO.res with e | tup
    · simp only [hres]
      exact ⟨hpm, hpt, fun p hp => Or.inl hp⟩
    · obtain ⟨hm2, model2, msS, smS, atl⟩ := tup
      simp only [hres]
      obtain ⟨hext2, hmsS, hsmS⟩ := hpok hm2 model2 msS smS atl hres
      have hbm2 : bM ≤ List.length hm2 := le_trans hbm hext2.1
      have hbtp : bT ≤ List.length PO.ht := le_trans hbt hpt.1
      set FTP := (if atl ≠ [] then
          allocSlice slackT PO.ht
            ((readSlice PO.ht PO.stepToolsS).filter fun td => atl.contains td.name)
        else (PO.ht, PO.stepToolsS)) with hFTP
      have hftpe : HeapExtends bT PO.ht FTP.1 := by
        rw [hFTP]
        split
        · exact allocSlice_extends slackT _ _ bT hbtp
        · exact heapExtends_refl bT _
      have hftpa : bT ≤ FTP.2.arr := by
        rw [hFTP]
        split
        · exact allocSlice_arr slackT _ _ bT hbtp
        · exact hpts
      have hbftp : bT ≤ List.length FTP.1 := le_trans hbtp hftpe.1
      set CM := allocSlice slackM hm2 (readSlice hm2 smS) with hCM
      set CT := allocSlice slackT FTP.1 (readSlice FTP.1 FTP.2) with hCT
      have hcme : HeapExtends bM hm2 CM.1 := allocSlice_extends slackM hm2 _ bM hbm2
      have hcma : bM ≤ CM.2.arr := allocSlice_arr slackM hm2 _ bM hbm2
      have hcte : HeapExtends bT FTP.1 CT.1 := allocSlice_extends slackT FTP.1 _ bT hbftp
      have hcta : bT ≤ CT.2.arr := allocSlice_arr slackT FTP.1 _ bT hbftp
      have hbcm : bM ≤ List.length CM.1 := le_trans hbm2 hcme.1
      set AM := goAppend slackM CM.1 msS [(turns stepNumber).message] with hAM
      have hame : HeapExtends bM CM.1 AM.1 := goAppend_extends slackM CM.1 msS _ bM hbcm hmsS
      have hama : bM ≤ AM.2.arr := goAppend_arr slackM CM.1 msS _ bM hbcm hmsS
      have hbam : bM ≤ List.length AM.1 := le_trans hbcm hame.1
      have hmChain : HeapExtends bM hm AM.1 :=
        heapExtends_trans bM _ _ _ (heapExtends_trans bM _ _ _ hext2 hcme) hame
      have htChain : HeapExtends bT ht CT.1 :=
        heapExtends_trans bT _ _ _ (heapExtends_trans bT _ _ _ hpt hftpe) hcte
      have hlog : ∀ p ∈ log ++ [(CM.2, CT.2)],
          p ∈ log ∨ (bM ≤ p.1.arr ∧ bT ≤ p.2.arr) := by
        intro p hp
        rcases List.mem_append.mp hp with hp | hp
        · exact Or.inl hp
        · right
          have : p = (CM.2, CT.2) := by simpa using hp
          subst this
          exact ⟨hcma, hcta⟩
      by_cases hcalls : ExtractToolCalls (turns stepNumber).message = []
      · rw [if_pos hcalls]
        exact ⟨hmChain, htChain, hlog⟩
      · rw [if_neg hcalls]
        rcases exec with _ | ex
        · exact ⟨hmChain, htChain, hlog⟩
        · simp only
          rcases hx : ex (ExtractToolCalls (turns stepNumber).message) with e | results
          all_goals simp only [hx]
          · exact ⟨hmChain, htChain, hlog⟩
          · set AM2 := goAppend slackM AM.1 AM.2 results with hAM2
            have ham2e : HeapExtends bM AM.1 AM2.1 :=
              goAppend_extends slackM AM.1 AM.2 results bM hbam hama
            have ham2a : bM ≤ AM2.2.arr := goAppend_arr slackM AM.1 AM.2 results bM hbam hama
            have hbam2 : bM ≤ List.length AM2.1 := le_trans hbam ham2e.1
            have hmChain2 : HeapExtends bM hm AM2.1 := heapExtends_trans bM _ _ _ hmChain ham2e
            have hbct : bT ≤ List.length CT.1 := le_trans hbftp hcte.1
            split
            · exact ⟨hmChain2, htChain, hlog⟩
            · obtain ⟨E1, E2, L⟩ := ih AM2.1 CT.1 model2 AM2.2
                (steps ++ [{ stepNumber := stepNumber, response := turns stepNumber,
                             toolCalls := ExtractToolCalls (turns stepNumber).message,
                             toolResults := results, activeTools := atl }])
                (stepNumber + 1) (log ++ [(CM.2, CT.2)]) hbam2 hbct ham2a
              refine ⟨heapExtends_trans bM _ _ _ hmChain2 E1,
                      heapExtends_trans bT _ _ _ htChain E2, ?_⟩
              intro p hp
              rcases L p hp with hp2 | hp2
              · exact hlog p hp2
              · exact Or.inr hp2

/-- The state `text.Stream.start` hands to the turn body on success:
the heaps after its copies, the engine's (possibly rebased)
conversation slice, the request slices passed to the provider, the
(possibly overridden) model, and the active-tool subset. -/
structure StartOk where
  hm : Heap Message
  ht : Heap ToolDefinition
  messagesS : GoSlice
  reqMessagesS : GoSlice
  reqToolsS : GoSlice
  model : String
  activeTools : List String

/-- The tool-slice tail of `text.Stream.start` (lines 344–358): copy
the engine's tool slice, filter it into a fresh slice when an active
subset was chosen, and copy the result into the outgoing request. -/
def startToolsH (slackT : Nat → Nat) (ht : Heap ToolDefinition) (toolsS : GoSlice)
    (activeTools : List String) : Heap ToolDefinition × GoSlice :=
  let c1 := allocSlice slackT ht (readSlice ht toolsS)
  let c2 :=
    if activeTools ≠ [] then
      allocSlice slackT c1.1
        ((readSlice c1.1 c1.2).filter fun td => activeTools.contains td.name)
    else (c1.1, c1.2)
  let c3 := allocSlice slackT c2.1 (readSlice c2.1 c2.2)
  (c3.1, c3.2)

/-- The tool-slice tail only allocates. -/
theorem startToolsH_frame (slackT : Nat → Nat) (ht : Heap ToolDefinition)
    (toolsS : GoSlice) (activeTools : List String) (bT : Nat)
    (hbt : bT ≤ List.length ht) :
    HeapExtends bT ht (startToolsH slackT ht toolsS activeTools).1 ∧
    bT ≤ (startToolsH slackT ht toolsS activeTools).2.arr := by
  unfold startToolsH
  simp only
  have e1 := allocSlice_extends slackT ht (readSlice ht toolsS) bT hbt
  have hb1 : bT ≤ List.length (allocSlice slackT ht (readSlice ht toolsS)).1 :=
    le_trans hbt e1.1
  have e2 : HeapExtends bT (allocSlice slackT ht (readSlice ht toolsS)).1
      (if activeTools ≠ [] then
        allocSlice slackT (allocSlice slackT ht (readSlice ht toolsS)).1
          ((readSlice (allocSlice slackT ht (readSlice ht toolsS)).1
            (allocSlice slackT ht (readSlice ht toolsS)).2).filter
            fun td => activeTools.contains td.name)
      else ((allocSlice slackT ht (readSlice ht toolsS)).1,
        (allocSlice slackT ht (readSlice ht toolsS)).2)).1 := by
    split
    · exact allocSlice_extends slackT _ _ bT hb1
    · exact heapExtends_refl bT _
  have hb2 := le_trans hb1 e2.1
  constructor
  · exact heapExtends_trans bT _ _ _ (heapExtends_trans bT _ _ _ e1 e2)
      (allocSlice_extends slackT _ _ bT hb2)
  · exact allocSlice_arr slackT _ _ bT hb2

/-- Mirrors `text.Stream.start` (lines 310–366) with allocations
explicit: copy the conversation into the outgoing request *before*
`PrepareStep` (so the hook's event request carries the conversation —
unlike the blocking loop), apply overrides (two fresh copies of
`res.Messages`), copy the tool list, filter it into a fresh slice when
an active subset was chosen, and copy it again into the request. The
first component is the message heap at the point a `PrepareStep` error
aborts the call. -/
def startH (slackM slackT : Nat → Nat)
    (prepareStep : Option (Text.PrepareStepEvent → Except Text.GenError Text.PrepareStepResult))
    (hm : Heap Message) (ht : Heap ToolDefinition) (toolsS : GoSlice)
    (model : String) (messagesS : GoSlice) (steps : List Text.Step)
    (stepNumber : Nat) : Heap Message × Except Text.GenError StartOk :=
  let r1 := allocSlice slackM hm (readSlice hm messagesS)
  let prep : Except Text.GenError (Heap Message × String × GoSlice × GoSlice × List String) :=
    match prepareStep with
    | none => .ok (r1.1, model, messagesS, r1.2, [])
    | some ps =>
      match ps { stepNumber := stepNumber, steps := steps,
                 request := { model := model, messages := readSlice r1.1 r1.2, tools := [] },
                 messages := readSlice r1.1 r1.2,
                 tools := readSlice ht toolsS } with
      | .error e => .error e
      | .ok res =>
        let model := if res.model ≠ "" then res.model else model
        match res.messages with
        | some ms =>
          let b1 := allocSlice slackM r1.1 ms
          let b2 := allocSlice slackM b1.1 ms
          .ok (b2.1, model, b1.2, b2.2, res.activeTools.getD [])
        | none => .ok (r1.1, model, messagesS, r1.2, res.activeTools.getD [])
  match prep with
  | .error e => (r1.1, .error e)
  | .ok (hm2, model, messagesS, reqMessagesS, activeTools) =>
    let c3 := startToolsH slackT ht toolsS activeTools
    (hm2, .ok { hm := hm2, ht := c3.1, messagesS := messagesS,
                reqMessagesS := reqMessagesS, reqToolsS := c3.2,
                model := model, activeTools := activeTools })

/-- `text.Stream.Next`'s end-of-stream bookkeeping run to exhaustion,
at the slice level (the streaming twin of `genLoopH`; the delta branch
touches no slices). As in the observable model, `fuel` only bounds the
recursion — the in-code cap check fires first. -/
def streamLoopH (slackM slackT : Nat → Nat) (turns : Nat → Response)
    (exec : Option Text.Executor)
    (stopWhen : Option (Text.StopWhenEvent → Bool))
    (prepareStep : Option (Text.PrepareStepEvent → Except Text.GenError Text.PrepareStepResult))
    (maxIterations : Nat) (toolsS : GoSlice) :
    Nat → Heap Message → Heap ToolDefinition → String → GoSlice →
    List Text.Step → Nat → List (GoSlice × GoSlice) → HeapRunResult
  | 0, hm, ht, _, _, _, _, log =>
    ⟨hm, ht, log, .error (.capExceeded maxIterations)⟩
  | fuel + 1, hm, ht, model, messagesS, steps, stepNumber, log =>
    match startH slackM slackT prepareStep hm ht toolsS model messagesS
      steps stepNumber with
    | (hmC, .error e) => ⟨hmC, ht, log, .error e⟩
    | (_, .ok so) =>
      let log := log ++ [(so.reqMessagesS, so.reqToolsS)]
      let final := turns stepNumber
      let am := goAppend slackM so.hm so.messagesS [final.message]
      let calls := ExtractToolCalls final.message
      let step : Text.Step :=
        { stepNumber := stepNumber, response := final, toolCalls := calls,
          toolResults := [], activeTools := so.activeTools }
      if calls = [] then ⟨am.1, so.ht, log, .ok ()⟩
      else
        match exec with
        | none => ⟨am.1, so.ht, log, .error .noExecutor⟩
        | some ex =>
          match ex calls with
          | .error e => ⟨am.1, so.ht, log, .error e⟩
          | .ok results =>
            let am2 := goAppend slackM am.1 am.2 results
            let steps := steps ++ [{ step with toolResults := results }]
            let stop :=
              match stopWhen with
              | some f => f { stepNumber := stepNumber, steps := steps,
                              messages := readSlice am2.1 am2.2 }
              | none => false
            if stop then ⟨am2.1, so.ht, log, .ok ()⟩
            else if stepNumber + 1 ≥ maxIterations then
              ⟨am2.1, so.ht, log, .error (.capExceeded maxIterations)⟩
            else
              streamLoopH slackM slackT turns exec stopWhen prepareStep maxIterations
                toolsS fuel am2.1 so.ht so.model am2.2 steps (stepNumber + 1) log

/-- `text.NewStream` followed by running the stream to exhaustion, at
the slice level: the request's message and tool slices are copied into
fresh engine-owned arrays at construction, then the loop runs. -/
def streamRunH (slackM slackT : Nat → Nat) (turns : Nat → Response)
    (exec : Option Text.Executor) (opts : Text.Options)
    (hm0 : Heap Message) (ht0 : Heap ToolDefinition) (req : RequestH) : HeapRunResult :=
  let maxIterations := Text.normalizeMaxIterations opts.maxIterations
  let pm := allocSlice slackM hm0 (readSlice hm0 req.messagesS)
  let pt := allocSlice slackT ht0 (readSlice ht0 req.toolsS)
  streamLoopH slackM slackT turns exec opts.stopWhen opts.prepareStep maxIterations
    pt.2 maxIterations pm.1 pt.1 req.model pm.2 [] 0 []

/-- `start` only allocates: existing arrays survive, and every slice
it returns is engine-owned. -/
theorem startH_frame (slackM slackT : Nat → Nat)
    (prepareStep : Option (Text.PrepareStepEvent → Except Text.GenError Text.PrepareStepResult))
    (hm : Heap Message) (ht : Heap ToolDefinition) (toolsS : GoSlice)
    (model : String) (messagesS : GoSlice) (steps : List Text.Step) (stepNumber : Nat)
    (bM bT : Nat) (hbm : bM ≤ List.length hm) (hbt : bT ≤ List.length ht)
    (hms : bM ≤ messagesS.arr) :
    HeapExtends bM hm (startH slackM slackT prepareStep hm ht toolsS model messagesS
      steps stepNumber).1 ∧
    (∀ so, (startH slackM slackT prepareStep hm ht toolsS model messagesS
        steps stepNumber).2 = .ok so →
      HeapExtends bM hm so.hm ∧ HeapExtends bT ht so.ht ∧
      bM ≤ so.messagesS.arr ∧ bM ≤ so.reqMessagesS.arr ∧ bT ≤ so.reqToolsS.arr) := by
  unfold startH
  simp only
  have e1 := allocSlice_extends slackM hm (readSlice hm messagesS) bM hbm
  have a1 := allocSlice_arr slackM hm (readSlice hm messagesS) bM hbm
  have hb1 : bM ≤ List.length (allocSlice slackM hm (readSlice hm messagesS)).1 :=
    le_trans hbm e1.1
  split
  · exact ⟨e1, fun so h => absurd h (by simp)⟩
  · next hm2 model' messagesS' reqMessagesS' activeTools' heq =>
    split at heq
    · -- no PrepareStep hook configured
      simp only [Except.ok.injEq, Prod.mk.injEq] at heq
      obtain ⟨h1, h2, h3, h4, h5⟩ := heq
      subst h1 h2 h3 h4 h5
      obtain ⟨et, at'⟩ := startToolsH_frame slackT ht toolsS [] bT hbt
      refine ⟨e1, ?_⟩
      intro so h
      simp only [Except.ok.injEq] at h
      subst h
      exact ⟨e1, et, hms, a1, at'⟩
    · split at heq
      · -- hook errored: contradiction with the ok equation
        simp at heq
      · rename_i res hok
        split at heq
        · -- hook returned a replacement message list
          rename_i ms hmsg
          simp only [Except.ok.injEq, Prod.mk.injEq] at heq
          obtain ⟨h1, h2, h3, h4, h5⟩ := heq
          subst h1 h2 h3 h4 h5
          have e2 := allocSlice_extends slackM
            (allocSlice slackM hm (readSlice hm messagesS)).1 ms bM hb1
          have e3 := allocSlice_extends slackM
            (allocSlice slackM (allocSlice slackM hm (readSlice hm messagesS)).1 ms).1 ms bM
            (le_trans hb1 e2.1)
          have echain2 : HeapExtends bM hm
              (allocSlice slackM (allocSlice slackM (allocSlice slackM hm
                (readSlice hm messagesS)).1 ms).1 ms).1 :=
            heapExtends_trans bM _ _ _ (heapExtends_trans bM _ _ _ e1 e2) e3
          have ab1 := allocSlice_arr slackM
            (allocSlice slackM hm (readSlice hm messagesS)).1 ms bM hb1
          have ab2 := allocSlice_arr slackM
            (allocSlice slackM (allocSlice slackM hm (readSlice hm messagesS)).1 ms).1 ms bM
            (le_trans hb1 e2.1)
          obtain ⟨et2, at2⟩ := startToolsH_frame slackT ht toolsS
            (res.activeTools.getD []) bT hbt
          refine ⟨echain2, ?_⟩
          intro so h
          simp only [Except.ok.injEq] at h
          subst h
          exact ⟨echain2, et2, ab1, ab2, at2⟩
        · -- hook kept the conversation
          simp only [Except.ok.injEq, Prod.mk.injEq] at heq
          obtain ⟨h1, h2, h3, h4, h5⟩ := heq
          subst h1 h2 h3 h4 h5
          obtain ⟨et2, at2⟩ := startToolsH_frame slackT ht toolsS
            (res.activeTools.getD []) bT hbt
          refine ⟨e1, ?_⟩
          intro so h
          simp only [Except.ok.injEq] at h
          subst h
          exact ⟨e1, et2, hms, a1, at2⟩

/-- The streaming loop never writes below the bases, and every
provider stream is opened with engine-owned request slices. -/
theorem streamLoopH_frame (slackM slackT : Nat → Nat) (turns : Nat → Response)
    (exec : Option Text.Executor)
    (stopWhen : Option (Text.StopWhenEvent → Bool))
    (prepareStep : Option (Text.PrepareStepEvent → Except Text.GenError Text.PrepareStepResult))
    (maxIterations : Nat) (toolsS : GoSlice) (bM bT : Nat) :
    ∀ (r : Nat) (hm : Heap Message) (ht : Heap ToolDefinition) (model : String)
      (messagesS : GoSlice) (steps : List Text.Step) (stepNumber : Nat)
      (log : List (GoSlice × GoSlice)),
      bM ≤ List.length hm → bT ≤ List.length ht → bM ≤ messagesS.arr →
      HeapExtends bM hm (streamLoopH slackM slackT turns exec stopWhen prepareStep
        maxIterations toolsS r hm ht model messagesS steps stepNumber log).hm ∧
      HeapExtends bT ht (streamLoopH slackM slackT turns exec stopWhen prepareStep
        maxIterations toolsS r hm ht model messagesS steps stepNumber log).ht ∧
      ∀ p ∈ (streamLoopH slackM slackT turns exec stopWhen prepareStep
        maxIterations toolsS r hm ht model messagesS steps stepNumber log).log,
        p ∈ log ∨ (bM ≤ p.1.arr ∧ bT ≤ p.2.arr) := by
  intro r
  induction r with
  | zero =>
    intro hm ht model messagesS steps stepNumber log hbm hbt hms
    exact ⟨heapExtends_refl bM hm, heapExtends_refl bT ht, fun p hp => Or.inl hp⟩
  | succ r ih =>
    intro hm ht model messagesS steps stepNumber log hbm hbt hms
    rw [streamLoopH.eq_def]
    simp only
    obtain ⟨hsC, hsOk⟩ := startH_frame slackM slackT prepareStep hm ht toolsS model
      messagesS steps stepNumber bM bT hbm hbt hms
    cases hst : startH slackM slackT prepareStep hm ht toolsS model messagesS
      steps stepNumber with
    | mk hmC res =>
      simp only [hst] at hsC hsOk
      cases res with
      | error e =>
        simp only [hst]
        exact ⟨hsC, heapExtends_refl bT ht, fun p hp => Or.inl hp⟩
      | ok so =>
        simp only [hst]
        obtain ⟨hsohm, hsoht, hsoms, hsorm, hsort⟩ := hsOk so rfl
        have hbm2 : bM ≤ List.length so.hm := le_trans hbm hsohm.1
        set AM := goAppend slackM so.hm so.messagesS [(turns stepNumber).message] with hAM
        have hame : HeapExtends bM so.hm AM.1 :=
          goAppend_extends slackM so.hm so.messagesS _ bM hbm2 hsoms
        have hama : bM ≤ AM.2.arr := goAppend_arr slackM so.hm so.messagesS _ bM hbm2 hsoms
        have hbam : bM ≤ List.length AM.1 := le_trans hbm2 hame.1
        have hmChain : HeapExtends bM hm AM.1 := heapExtends_trans bM _ _ _ hsohm hame
        have hlog : ∀ p ∈ log ++ [(so.reqMessagesS, so.reqToolsS)],
            p ∈ log ∨ (bM ≤ p.1.arr ∧ bT ≤ p.2.arr) := by
          intro p hp
          rcases List.mem_append.mp hp with hp | hp
          · exact Or.inl hp
          · right
            have : p = (so.reqMessagesS, so.reqToolsS) := by simpa using hp
            subst this
            exact ⟨hsorm, hsort⟩
        by_cases hcalls : ExtractToolCalls (turns stepNumber).message = []
        · rw [if_pos hcalls]
          exact ⟨hmChain, hsoht, hlog⟩
        · rw [if_neg hcalls]
          rcases exec with _ | ex
          · exact ⟨hmChain, hsoht, hlog⟩
          · simp only
            rcases hx : ex (ExtractToolCalls (turns stepNumber).message) with e | results
            all_goals simp only [hx]
            · exact ⟨hmChain, hsoht, hlog⟩
            · set AM2 := goAppend slackM AM.1 AM.2 results with hAM2
              have ham2e : HeapExtends bM AM.1 AM2.1 :=
                goAppend_extends slackM AM.1 AM.2 results bM hbam hama
              have ham2a : bM ≤ AM2.2.arr :=
                goAppend_arr slackM AM.1 AM.2 results bM hbam hama
              have hbam2 : bM ≤ List.length AM2.1 := le_trans hbam ham2e.1
              have hmChain2 : HeapExtends bM hm AM2.1 :=
                heapExtends_trans bM _ _ _ hmChain ham2e
              have hbsoht : bT ≤ List.length so.ht := le_trans hbt hsoht.1
              split
              · exact ⟨hmChain2, hsoht, hlog⟩
              · by_cases hcap : stepNumber + 1 ≥ maxIterations
                · rw [if_pos hcap]
                  exact ⟨hmChain2, hsoht, hlog⟩
                · rw [if_neg hcap]
                  obtain ⟨E1, E2, L⟩ := ih AM2.1 so.ht so.model AM2.2
                    (steps ++ [{ stepNumber := stepNumber, response := turns stepNumber,
                                 toolCalls := ExtractToolCalls (turns stepNumber).message,
                                 toolResults := results, activeTools := so.activeTools }])
                    (stepNumber + 1) (log ++ [(so.reqMessagesS, so.reqToolsS)])
                    hbam2 hbsoht ham2a
                  refine ⟨heapExtends_trans bM _ _ _ hmChain2 E1,
                          heapExtends_trans bT _ _ _ hsoht E2, ?_⟩
                  intro p hp
                  rcases L p hp with hp2 | hp2
                  · exact hlog p hp2
                  · exact Or.inr hp2

/-- A slice read only consults the array it is rooted in, so an
untouched index reads back the original elements. -/
theorem readSlice_eq_of_get {α : Type} (h h' : Heap α) (s : GoSlice)
    (heq : List.get? h' s.arr = List.get? h s.arr) :
    readSlice h' s = readSlice h s := by
  unfold readSlice
  rw [heq]

/-- Unpacks a whole-heap frame fact into the caller-visible
guarantees: per-array preservation, per-slice read preservation, and
freshness of every logged provider-call slice. -/
theorem frame_five (hm0 : Heap Message) (ht0 : Heap ToolDefinition) (R : HeapRunResult)
    (em : HeapExtends (List.length hm0) hm0 R.hm)
    (et : HeapExtends (List.length ht0) ht0 R.ht)
    (lg : ∀ p ∈ R.log, List.length hm0 ≤ p.1.arr ∧ List.length ht0 ≤ p.2.arr) :
    (∀ i, i < List.length hm0 → List.get? R.hm i = List.get? hm0 i) ∧
    (∀ i, i < List.length ht0 → List.get? R.ht i = List.get? ht0 i) ∧
    (∀ s : GoSlice, s.arr < List.length hm0 → readSlice R.hm s = readSlice hm0 s) ∧
    (∀ s : GoSlice, s.arr < List.length ht0 → readSlice R.ht s = readSlice ht0 s) ∧
    (∀ p ∈ R.log, List.length hm0 ≤ p.1.arr ∧ List.length ht0 ≤ p.2.arr) :=
  ⟨em.2, et.2, fun s hs => readSlice_eq_of_get _ _ s (em.2 s.arr hs),
   fun s hs => readSlice_eq_of_get _ _ s (et.2 s.arr hs), lg⟩

/-- C10: neither the blocking step loop nor the streaming step engine
mutates the caller's request. The request's message and tool slices
are copied on entry, so after any run every array of the caller's
heaps is byte-identical, every slice the caller holds reads back the
same elements, and every per-turn provider call was handed request
slices rooted in freshly allocated engine-owned arrays (at or past
the end of the caller's heaps) — for both engines, any capacity-slack
oracle, any provider turns, executor, and options. -/
theorem request_slices_unchanged_by_runs
    (slackM slackT : Nat → Nat) (turns : Nat → Response)
    (exec : Option Text.Executor) (opts : Text.Options)
    (hm0 : Heap Message) (ht0 : Heap ToolDefinition) (req : RequestH) :
    ((∀ i, i < List.length hm0 →
        List.get? (GenerateH slackM slackT turns exec opts hm0 ht0 req).hm i =
          List.get? hm0 i) ∧
     (∀ i, i < List.length ht0 →
        List.get? (GenerateH slackM slackT turns exec opts hm0 ht0 req).ht i =
          List.get? ht0 i) ∧
     (∀ s : GoSlice, s.arr < List.length hm0 →
        readSlice (GenerateH slackM slackT turns exec opts hm0 ht0 req).hm s =
          readSlice hm0 s) ∧
     (∀ s : GoSlice, s.arr < List.length ht0 →
        readSlice (GenerateH slackM slackT turns exec opts hm0 ht0 req).ht s =
          readSlice ht0 s) ∧
     (∀ p ∈ (GenerateH slackM slackT turns exec opts hm0 ht0 req).log,
        List.length hm0 ≤ p.1.arr ∧ List.length ht0 ≤ p.2.arr)) ∧
    ((∀ i, i < List.length hm0 →
        List.get? (streamRunH slackM slackT turns exec opts hm0 ht0 req).hm i =
          List.get? hm0 i) ∧
     (∀ i, i < List.length ht0 →
        List.get? (streamRunH slackM slackT turns exec opts hm0 ht0 req).ht i =
          List.get? ht0 i) ∧
     (∀ s : GoSlice, s.arr < List.length hm0 →
        readSlice (streamRunH slackM slackT turns exec opts hm0 ht0 req).hm s =
          readSlice hm0 s) ∧
     (∀ s : GoSlice, s.arr < List.length ht0 →
        readSlice (streamRunH slackM slackT turns exec opts hm0 ht0 req).ht s =
          readSlice ht0 s) ∧
     (∀ p ∈ (streamRunH slackM slackT turns exec opts hm0 ht0 req).log,
        List.length hm0 ≤ p.1.arr ∧ List.length ht0 ≤ p.2.arr)) := by
  have em0 := allocSlice_extends slackM hm0 (readSlice hm0 req.messagesS)
      (List.length hm0) (le_refl _)
  have et0 := allocSlice_extends slackT ht0 (readSlice ht0 req.toolsS)
      (List.length ht0) (le_refl _)
  have am0 := allocSlice_arr slackM hm0 (readSlice hm0 req.messagesS)
      (List.length hm0) (le_refl _)
  constructor
  · obtain ⟨E1, E2, L⟩ := genLoopH_frame slackM slackT turns exec opts.stopWhen
      opts.prepareStep (Text.normalizeMaxIterations opts.maxIterations)
      (allocSlice slackT ht0 (readSlice ht0 req.toolsS)).2
      (List.length hm0) (List.length ht0)
      (Text.normalizeMaxIterations opts.maxIterations)
      (allocSlice slackM hm0 (readSlice hm0 req.messagesS)).1
      (allocSlice slackT ht0 (readSlice ht0 req.toolsS)).1
      req.model
      (allocSlice slackM hm0 (readSlice hm0 req.messagesS)).2
      [] 0 [] em0.1 et0.1 am0
    exact frame_five hm0 ht0 _
      (heapExtends_trans _ _ _ _ em0 E1)
      (heapExtends_trans _ _ _ _ et0 E2)
      (fun p hp => (L p hp).resolve_left (by simp))
  · obtain ⟨E1, E2, L⟩ := streamLoopH_frame slackM slackT turns exec opts.stopWhen
      opts.prepareStep (Text.normalizeMaxIterations opts.maxIterations)
      (allocSlice slackT ht0 (readSlice ht0 req.toolsS)).2
      (List.length hm0) (List.length ht0)
      (Text.normalizeMaxIterations opts.maxIterations)
      (allocSlice slackM hm0 (readSlice hm0 req.messagesS)).1
      (allocSlice slackT ht0 (readSlice ht0 req.toolsS)).1
      req.model
      (allocSlice slackM hm0 (readSlice hm0 req.messagesS)).2
      [] 0 [] em0.1 et0.1 am0
    exact frame_five hm0 ht0 _
      (heapExtends_trans _ _ _ _ em0 E1)
      (heapExtends_trans _ _ _ _ et0 E2)
      (fun p hp => (L p hp).resolve_left (by simp))

/-- The frame theorem at a one-array heap per type, read at index 0. -/
theorem request_slices_unchanged_by_runs_witness :
    (0 : Nat) < List.length [(⟨[Text.userMsg], 5⟩ : GoArray Message)] ∧
    List.get? (GenerateH (fun _ => 7) (fun _ => 3) Text.turnsA (some Text.okExec)
        Text.optsDefault [⟨[Text.userMsg], 5⟩] [⟨[], 4⟩]
        { model := "m", messagesS := ⟨0, 1⟩, toolsS := ⟨0, 0⟩ }).hm 0 =
      List.get? [(⟨[Text.userMsg], 5⟩ : GoArray Message)] 0 :=
  ⟨by decide, (request_slices_unchanged_by_runs (fun _ => 7) (fun _ => 3) Text.turnsA
      (some Text.okExec) Text.optsDefault [⟨[Text.userMsg], 5⟩] [⟨[], 4⟩]
      { model := "m", messagesS := ⟨0, 1⟩, toolsS := ⟨0, 0⟩ }).1.1 0 (by decide)⟩

end Mem

end AI
